import Mathlib

/-!
# NES synth: arpeggiator, phasor and bit-crusher

A shallow embedding of `Arp.h` (class `Arpeggiator`, class `Phasor` and the
oscillator classes derived from it) and of class `BitCrusherVoice` from
`Sample.h`.

Conventions of the embedding.

* `float` and `double` quantities are rationals (`ℚ`). The structure of the
  program (the arpeggiator's events, the oscillator shapes, the render loop)
  is embedded with the arithmetic of the source read as exact arithmetic.
* Where a property depends on the rounding of the floating-point operations,
  the function is embedded a second time with every operation of the source
  rounded to its format, in the namespaces `Binary32` (`float`) and `Binary64`
  (`double`): `FloatFormat.round` is IEEE 754 round-to-nearest-even with
  subnormals, each C operator is one rounded operation (no fused
  multiply-add, `float` expressions evaluated in `float`), and the result is
  `none` when an operation overflows or divides by zero, so that infinities
  and NaN are not followed further. The properties of `bitcrushing`, of
  `ASDROsc::output` and of the trigger timing that depend on rounding are
  stated of these definitions.
* `int` quantities are `Int`; C++ `/` and `%` on `int` are `Int.tdiv` and
  `Int.tmod` (truncation towards zero).
* The JUCE library types are modelled by what the source observes of them:
  a `juce::MidiBuffer` is the list of its events in buffer order, a
  `juce::SortedSet<int>` is the ascending list of its elements, a
  `juce::AudioPlayHead*` is an optional play head whose `getPosition()` is an
  optional `PositionInfo`, a `juce::AudioSampleBuffer` is its channel count and
  the sample at each channel and index.
* The envelope, filter and random classes of JUCE and the C functions `sin` and
  `powf` are parameters of the voice model (`Library`); the theorems hold for
  every implementation of them.
* In `renderNextBlock` a division by zero (`sampleIndex % 0`) makes the result
  `none`, and so does a float division by zero in `ASDROsc.output`. In
  `Arpeggiator.skip` the quotient by a rate of 0 is the `0` of
  `Int.tdiv`; the theorems on the arpeggiator take the rate from 1 on.
-/

namespace NesSynth

/-! ## JUCE MIDI messages and buffers -/

/-- A `juce::MidiMessage`, as far as the arpeggiator looks at it. -/
inductive MidiMessage where
  | noteOn (channel : Nat) (noteNumber : Int) (velocity : Nat)
  | noteOff (channel : Nat) (noteNumber : Int)
  | other (data1 : Int)
deriving DecidableEq, Repr

namespace MidiMessage

/-- The `getNoteNumber()` accessor: the first data byte. -/
def getNoteNumber : MidiMessage → Int
  | noteOn _ n _ => n
  | noteOff _ n => n
  | other d => d

/-- The `isNoteOn()` accessor: a note-on status byte with a non-zero velocity. -/
def isNoteOn : MidiMessage → Bool
  | noteOn _ _ v => decide (v ≠ 0)
  | _ => false

/-- The `isNoteOff()` accessor: a note-off status byte, or a note-on with velocity 0. -/
def isNoteOff : MidiMessage → Bool
  | noteOff _ _ => true
  | noteOn _ _ v => decide (v = 0)
  | other _ => false

end MidiMessage

/-- One entry of a `juce::MidiBuffer`: a message and its sample position. -/
structure MidiEvent where
  samplePosition : Int
  message : MidiMessage
deriving DecidableEq, Repr

/-- A `juce::MidiBuffer`: its events in buffer (time) order. -/
abbrev MidiBuffer := List MidiEvent

/-- The `MidiBuffer::addEvent (message, sampleNumber)` method: the event goes in
front of the first event with a later sample position, that is after every
event already at the same position. -/
def MidiBuffer.addEvent : MidiBuffer → MidiMessage → Int → MidiBuffer
  | [], m, t => [⟨t, m⟩]
  | e :: es, m, t =>
    if t < e.samplePosition then ⟨t, m⟩ :: e :: es
    else e :: MidiBuffer.addEvent es m t

/-! ## `juce::SortedSet<int>` -/

/-- A `juce::SortedSet<int>`: its elements in ascending order. -/
abbrev SortedSet := List Int

namespace SortedSet

/-- The `SortedSet::add` method: insert at the sorted position unless already present. -/
def add : SortedSet → Int → SortedSet
  | [], x => [x]
  | y :: ys, x =>
    if x < y then x :: y :: ys
    else if x = y then y :: ys
    else y :: add ys x

/-- The `SortedSet::removeValue` method: remove the element if it is present. -/
def removeValue : SortedSet → Int → SortedSet
  | [], _ => []
  | y :: ys, x => if x = y then ys else y :: removeValue ys x

/-- The `SortedSet::size` method. -/
def size (s : SortedSet) : Int := (s.length : Int)

/-- The `SortedSet::operator[]` method: the element at `index`, and the default
value `0` when the index is out of range. -/
def get (s : SortedSet) (index : Int) : Int :=
  if 0 ≤ index ∧ index < s.size then s.getD index.toNat 0 else 0

end SortedSet

/-! ## The host play head -/

/-- A `juce::AudioPlayHead::PositionInfo`, restricted to the fields read by the arpeggiator. -/
structure PositionInfo where
  ppqPosition : Option ℚ
  bpm : Option ℚ
  isPlaying : Bool

/-- A `juce::AudioPlayHead`, given by the result of its `getPosition()`. -/
structure AudioPlayHead where
  getPosition : Option PositionInfo

/-! ## The arpeggiator -/

/-- The private data members of `class Arpeggiator`. -/
structure Arpeggiator where
  sampleRate : ℚ
  positionInQuarterNotes : ℚ
  rate : Int
  noteIndex : Int
  lastNote : Int
  isPlaying : Bool
  fallbackBPM : ℚ
  playHead : Option AudioPlayHead
  notes : SortedSet

/-- Conversion of a `double` to `int`: truncation towards zero. -/
def truncToInt (x : ℚ) : Int := if 0 ≤ x then ⌊x⌋ else ⌈x⌉

namespace Arpeggiator

def setFallbackBPM (a : Arpeggiator) (fallbackBPM : ℚ) : Arpeggiator :=
  { a with fallbackBPM := fallbackBPM }

def setPlayHead (a : Arpeggiator) (playHead : Option AudioPlayHead) : Arpeggiator :=
  { a with playHead := playHead }

def setRate (a : Arpeggiator) (rate : Int) : Arpeggiator :=
  { a with rate := rate }

def getPositionInQuarterNotes (a : Arpeggiator) : ℚ :=
  match a.playHead with
  | some ph =>
    match ph.getPosition with
    | some pos =>
      match pos.ppqPosition with
      | some p => p
      | none => a.positionInQuarterNotes
    | none => a.positionInQuarterNotes
  | none => a.positionInQuarterNotes

def getBPM (a : Arpeggiator) : ℚ :=
  match a.playHead with
  | some ph =>
    match ph.getPosition with
    | some pos =>
      match pos.bpm with
      | some b => b
      | none => a.fallbackBPM
    | none => a.fallbackBPM
  | none => a.fallbackBPM

/-- The method `getIsPlaying`: when the play head has a position whose
`getIsPlaying()` is true that value is returned, and in every other case the
method falls through to `return true`. -/
def getIsPlaying (a : Arpeggiator) : Bool :=
  match a.playHead with
  | some ph =>
    match ph.getPosition with
    | some pos => if pos.isPlaying then pos.isPlaying else true
    | none => true
  | none => true

/-- The method `prepareToPlay`; its second, unnamed `int` parameter is not read. -/
def prepareToPlay (a : Arpeggiator) (sampleRate : ℚ) : Arpeggiator :=
  { a with sampleRate := sampleRate, notes := [], noteIndex := 0, lastNote := -1 }

/-- The loop over the incoming events of `processBlock` (lines 121-130). -/
def updateNotes : SortedSet → MidiBuffer → SortedSet
  | notes, [] => notes
  | notes, e :: es =>
    let noteNumber := e.message.getNoteNumber
    if e.message.isNoteOn then updateNotes (notes.add noteNumber) es
    else if e.message.isNoteOff then updateNotes (notes.removeValue noteNumber) es
    else updateNotes notes es

/-- The table `positions` of `processBlock`. -/
def positions : List ℚ := [0, 0.125, 0.25, 0.375, 0.50, 0.625, 0.75, 0.875, 1.0]

/-- The local `positionCount` of `processBlock`: `sizeof(positions) / sizeof(positions[0])`. -/
def positionCount : Int := (positions.length : Int)

/-- The local `skip` of `processBlock`. -/
def skip (rate : Int) : Int := max 1 ((positionCount - 1).tdiv rate)

/-- The search loop `for (int i = 0; i < positionCount; i += skip)` of
`processBlock`, entered at index `i` with the current value of
`samplesToNextNote`; `fuel` bounds the number of iterations. -/
def nextNoteLoop (positionInQuarterNotes quarterNoteSamples : ℚ) (skip : Int) :
    Nat → Int → ℚ → ℚ
  | 0, _, samplesToNextNote => samplesToNextNote
  | fuel + 1, i, samplesToNextNote =>
    if i < positionCount then
      let pos := positions.getD i.toNat 0
      let frac := positionInQuarterNotes - (⌊positionInQuarterNotes⌋ : ℚ)
      let distanceToNextNote := pos - frac
      let samplesToNextNote := distanceToNextNote * quarterNoteSamples
      if samplesToNextNote ≥ 0 then samplesToNextNote
      else nextNoteLoop positionInQuarterNotes quarterNoteSamples skip fuel (i + skip)
        samplesToNextNote
    else samplesToNextNote

/-- The value of `samplesToNextNote` after the search loop. As `skip ≥ 1` the
loop body runs at most `positionCount` times, which is the fuel given. -/
def samplesToNextNote (positionInQuarterNotes bpm sampleRate : ℚ) (rate numSamples : Int) : ℚ :=
  let quarterNotesPerSecond := bpm / 60
  let quarterNoteSamples := sampleRate / quarterNotesPerSecond
  nextNoteLoop positionInQuarterNotes quarterNoteSamples (skip rate) positions.length 0
    (numSamples : ℚ)

/-- What a call of `processBlock` leaves behind: the arpeggiator, the MIDI
buffer, and (as a record of the call) the events handed to `addEvent`, in
call order. -/
structure BlockResult where
  arp : Arpeggiator
  midiMessages : MidiBuffer
  added : List MidiEvent

/-- The method `processBlock`, for a buffer of `numSamples` samples. -/
def processBlock (a : Arpeggiator) (numSamples : Int) (midiMessages : MidiBuffer) :
    BlockResult :=
  let positionInQuarterNotes := a.getPositionInQuarterNotes
  let bpm := a.getBPM
  let wasPlaying := a.isPlaying
  let isPlaying := a.getIsPlaying
  let noteIndex := if !wasPlaying && isPlaying then 0 else a.noteIndex
  let notes := updateNotes a.notes midiMessages
  let quarterNotesPerSecond := bpm / 60
  let quarterNoteSamples := a.sampleRate / quarterNotesPerSecond
  let samplesToNextNote :=
    Arpeggiator.samplesToNextNote positionInQuarterNotes bpm a.sampleRate a.rate numSamples
  let a1 : Arpeggiator :=
    { a with positionInQuarterNotes := positionInQuarterNotes, isPlaying := isPlaying,
             noteIndex := noteIndex, notes := notes }
  let r : BlockResult :=
    if samplesToNextNote < (numSamples : ℚ) then
      let t := truncToInt samplesToNextNote
      let r1 : BlockResult :=
        if a1.lastNote ≠ -1 then
          { arp := { a1 with lastNote := -1 },
            midiMessages := MidiBuffer.addEvent midiMessages (.noteOff 1 a1.lastNote) t,
            added := [⟨t, .noteOff 1 a1.lastNote⟩] }
        else { arp := a1, midiMessages := midiMessages, added := [] }
      if notes.size > 0 then
        let lastNote := notes.get r1.arp.noteIndex
        { arp := { r1.arp with lastNote := lastNote,
                               noteIndex := (r1.arp.noteIndex + 1).tmod notes.size },
          midiMessages := MidiBuffer.addEvent r1.midiMessages (.noteOn 1 lastNote 127) t,
          added := r1.added ++ [⟨t, .noteOn 1 lastNote 127⟩] }
      else r1
    else { arp := a1, midiMessages := midiMessages, added := [] }
  { r with arp := { r.arp with
      positionInQuarterNotes := r.arp.positionInQuarterNotes + (numSamples : ℚ) / quarterNoteSamples } }

/-- The trigger condition `samplesToNextNote < numSamples` of `processBlock`. -/
def fires (a : Arpeggiator) (numSamples : Int) : Prop :=
  Arpeggiator.samplesToNextNote a.getPositionInQuarterNotes a.getBPM a.sampleRate a.rate
    numSamples < (numSamples : ℚ)

instance (a : Arpeggiator) (numSamples : Int) : Decidable (a.fires numSamples) := by
  unfold Arpeggiator.fires; infer_instance

/-- The sample offset handed to `addEvent` when the trigger fires. -/
def triggerOffset (a : Arpeggiator) (numSamples : Int) : Int :=
  truncToInt (Arpeggiator.samplesToNextNote a.getPositionInQuarterNotes a.getBPM a.sampleRate
    a.rate numSamples)

end Arpeggiator

/-- What the host supplies for one audio callback: the values given to the
setters of the arpeggiator before `processBlock`, the size of the audio buffer
and the incoming MIDI buffer. -/
structure Block where
  fallbackBPM : ℚ
  playHead : Option AudioPlayHead
  rate : Int
  numSamples : Int
  midiMessages : MidiBuffer

/-- The three setter calls that precede `processBlock` in an audio callback. -/
def Arpeggiator.configure (a : Arpeggiator) (b : Block) : Arpeggiator :=
  ((a.setFallbackBPM b.fallbackBPM).setPlayHead b.playHead).setRate b.rate

/-- One audio callback with the arpeggiator enabled, as in
`SynthExampleAudioProcessor::processBlock`: the three setters, then `processBlock`. -/
def Arpeggiator.callback (a : Arpeggiator) (b : Block) : BlockResult :=
  (a.configure b).processBlock b.numSamples b.midiMessages

/-- A sequence of audio callbacks: the final arpeggiator and every event handed
to `addEvent` on the way, in order. -/
def Arpeggiator.run (a : Arpeggiator) : List Block → Arpeggiator × List MidiEvent
  | [] => (a, [])
  | b :: bs =>
    (((a.callback b).arp.run bs).1, (a.callback b).added ++ ((a.callback b).arp.run bs).2)

/-- The number of callbacks of a sequence in which the trigger fires. -/
def Arpeggiator.triggers (a : Arpeggiator) : List Block → Nat
  | [] => 0
  | b :: bs =>
    (if (a.configure b).fires b.numSamples then 1 else 0) + (a.callback b).arp.triggers bs

/-- The note numbers of the note-on events of a list of events, in order. -/
def noteOnNumbers (evs : List MidiEvent) : List Int :=
  (evs.filter (fun e => e.message.isNoteOn)).map (fun e => e.message.getNoteNumber)

/-! ## The phase accumulator -/

/-- The data members of `class Phasor` that its methods read or write. -/
structure Phasor where
  frequency : ℚ
  sampleRate : ℚ
  phase : ℚ
  phaseDelta : ℚ
  baseFrequency : ℚ

namespace Phasor

/-- The base-class `output` hook: the phase itself. -/
def output (p : ℚ) : ℚ := p

/-- The method `process`: the phasor after the phase advance, and the value
returned, for the `output` hook of the oscillator class at hand. -/
def process (output : ℚ → ℚ) (ph : Phasor) : Phasor × ℚ :=
  let phase := ph.phase + ph.phaseDelta
  let phase := if phase > 1 then phase - 1 else phase
  ({ ph with phase := phase }, output phase)

def setPhase (ph : Phasor) (phase : ℚ) : Phasor := { ph with phase := phase }

def setSampleRate (ph : Phasor) (SR : ℚ) : Phasor := { ph with sampleRate := SR }

def setFrequency (ph : Phasor) (freq : ℚ) : Phasor :=
  { ph with frequency := freq, phaseDelta := freq / ph.sampleRate }

def setBaseFrequency (ph : Phasor) (freq : ℚ) : Phasor :=
  ({ ph with baseFrequency := freq }).setFrequency freq

def setOsc (ph : Phasor) (sr freq phase : ℚ) : Phasor :=
  ((ph.setSampleRate sr).setFrequency freq).setPhase phase

def getPhase (ph : Phasor) : ℚ := ph.phase

/-- The phasor after `n` successive calls of `process`. -/
def processN (output : ℚ → ℚ) : Nat → Phasor → Phasor
  | 0, ph => ph
  | n + 1, ph => processN output n (process output ph).1

end Phasor

/-! ## The bit-crusher -/

/-- The function `juce::jlimit (lowerLimit, upperLimit, valueToConstrain)`. -/
def jlimit (lowerLimit upperLimit valueToConstrain : ℚ) : ℚ :=
  if valueToConstrain < lowerLimit then lowerLimit
  else if upperLimit < valueToConstrain then upperLimit
  else valueToConstrain

/-- The method `BitCrusherVoice::bitcrushing`. The parameters `bitDepth` and
`bitDepthLFOAmount` are the values the voice reads from the parameter tree; the
C library function `powf` is a parameter of the model. -/
def bitcrushing (powf : ℚ → ℚ → ℚ) (bitDepth bitDepthLFOAmount : ℚ) (sample lfoValue : ℚ) : ℚ :=
  let modulatedBitDepth := bitDepth + lfoValue * bitDepthLFOAmount
  let modulatedBitDepth := jlimit 1 24 modulatedBitDepth
  let bitDepthPow := powf 2 modulatedBitDepth - 1
  (⌊sample * bitDepthPow + 0.5⌋ : ℚ) / bitDepthPow

/-- An instance of `powf` for concrete evaluation: exact on exponents that are
natural numbers, the exponent being rounded down otherwise. -/
def powfFloor (base exponent : ℚ) : ℚ := base ^ (⌊exponent⌋).toNat

/-! ## The oscillators -/

namespace TriOsc

/-- The `output` override of `class TriOsc`. -/
def output (p : ℚ) : ℚ := |p - 0.5| - 0.25

end TriOsc

namespace SinOsc

/-- The `output` override of `class SinOsc`; the C library function `sin` is a
parameter of the model. -/
def output (sin : ℚ → ℚ) (p : ℚ) : ℚ := sin (p * 2.0 * 3.14159)

end SinOsc

/-- The data members of `class SquareOsc`: those of the base class `Phasor` and
the pulse width. -/
structure SquareOsc extends Phasor where
  pulseWidth : ℚ

namespace SquareOsc

/-- A freshly constructed `SquareOsc`: the member initialisers set the phase to
0 and the pulse width to 0.5, the other members are not initialised and are
taken as given. -/
def construct (frequency sampleRate phaseDelta baseFrequency : ℚ) : SquareOsc :=
  { frequency := frequency, sampleRate := sampleRate, phase := 0, phaseDelta := phaseDelta,
    baseFrequency := baseFrequency, pulseWidth := 0.5 }

/-- The `output` override of `class SquareOsc`. -/
def output (sq : SquareOsc) (p : ℚ) : ℚ :=
  let outVal : ℚ := 0.5
  if p > sq.pulseWidth then -0.5 else outVal

def setPulseWidth (sq : SquareOsc) (pw : ℚ) : SquareOsc := { sq with pulseWidth := pw }

/-- The inherited method `setFrequency`. -/
def setFrequency (sq : SquareOsc) (freq : ℚ) : SquareOsc :=
  { sq with toPhasor := sq.toPhasor.setFrequency freq }

/-- The inherited method `setSampleRate`. -/
def setSampleRate (sq : SquareOsc) (SR : ℚ) : SquareOsc :=
  { sq with toPhasor := sq.toPhasor.setSampleRate SR }

/-- The inherited method `setPhase`. -/
def setPhase (sq : SquareOsc) (phase : ℚ) : SquareOsc :=
  { sq with toPhasor := sq.toPhasor.setPhase phase }

def setOsc (sq : SquareOsc) (sr freq phase pw : ℚ) : SquareOsc :=
  (((sq.setSampleRate sr).setFrequency freq).setPhase phase).setPulseWidth pw

/-- The inherited method `process`, with the `output` override of this class. -/
def process (sq : SquareOsc) : SquareOsc × ℚ :=
  ({ sq with toPhasor := (Phasor.process sq.output sq.toPhasor).1 },
   (Phasor.process sq.output sq.toPhasor).2)

end SquareOsc

/-! ## The JUCE classes used by the voice -/

/-- A `juce::ADSR::Parameters`. -/
structure ADSRParameters where
  attack : ℚ
  decay : ℚ
  sustain : ℚ
  release : ℚ

/-- The library classes and functions the voice calls, as parameters of the
model: `juce::ADSR`, `juce::IIRFilter`, `juce::Random`, and the C library
functions `sin` and `powf` (also standing for `std::pow`). Each class is given by
the type of its states and the methods the voice uses. -/
structure Library where
  ADSR : Type
  setSampleRate : ADSR → ℚ → ADSR
  setParameters : ADSR → ADSRParameters → ADSR
  noteOn : ADSR → ADSR
  noteOff : ADSR → ADSR
  getNextSample : ADSR → ADSR × ℚ
  isActive : ADSR → Bool
  IIRFilter : Type
  processSingleSampleRaw : IIRFilter → ℚ → IIRFilter × ℚ
  Random : Type
  nextFloat : Random → Random × ℚ
  sin : ℚ → ℚ
  powf : ℚ → ℚ → ℚ

/-- The function `juce::MidiMessage::getMidiNoteInHertz (noteNumber)`, with the
default concert pitch of 440 Hz: `440 * pow (2, (noteNumber - 69) / 12)`. -/
def getMidiNoteInHertz (pow : ℚ → ℚ → ℚ) (noteNumber : Int) : ℚ :=
  440 * pow 2 (((noteNumber : ℚ) - 69) / 12)

/-- A `juce::AudioSampleBuffer`: the number of channels and the sample held at
each channel and sample index. -/
structure AudioSampleBuffer where
  numChannels : Nat
  data : Nat → Int → ℚ

namespace AudioSampleBuffer

def getNumChannels (b : AudioSampleBuffer) : Nat := b.numChannels

def getSample (b : AudioSampleBuffer) (channel : Nat) (sampleIndex : Int) : ℚ :=
  b.data channel sampleIndex

def addSample (b : AudioSampleBuffer) (destChannel : Nat) (destSample : Int) (valueToAdd : ℚ) :
    AudioSampleBuffer :=
  { b with data := fun c i =>
      if c = destChannel ∧ i = destSample then b.data c i + valueToAdd else b.data c i }

/-- The loop `for (channel = 0; channel < getNumChannels(); ++channel) addSample (...)`
of `renderNextBlock`, over the first `n` channels. -/
def addSampleToChannels (sampleIndex : Int) (outputSample : ℚ) :
    Nat → AudioSampleBuffer → AudioSampleBuffer
  | 0, b => b
  | n + 1, b => (addSampleToChannels sampleIndex outputSample n b).addSample n sampleIndex
      outputSample

end AudioSampleBuffer

/-! ## The synthesiser voice -/

/-- The values of the parameter tree the voice reads through its
`std::atomic<float>*` members, as they stand during one call. -/
structure VoiceParameters where
  attackParam : ℚ
  decayParam : ℚ
  sustainParam : ℚ
  releaseParam : ℚ
  bitDepth : ℚ
  rateDivide : ℚ
  pulseWidth1Choice : ℚ
  pulseWidth2Choice : ℚ
  pitchOffset : ℚ
  modeParam : ℚ
  bitDepthLFOAmount : ℚ
  LFORate : ℚ
  typeLFO : ℚ

/-- The data members of `class BitCrusherVoice`, with the two members of the
base class `juce::SynthesiserVoice` that the voice reads or writes: the sample
rate returned by `getSampleRate()` and the note `clearCurrentNote()` resets. -/
structure BitCrusherVoice (L : Library) where
  playing : Bool
  lastEnvSample : ℚ
  highHatFilter : L.IIRFilter
  snareFilter : L.IIRFilter
  sinLFO : Phasor
  bass : Phasor
  triLFO : Phasor
  pulse1 : SquareOsc
  pulse2 : SquareOsc
  squareLFO : SquareOsc
  random : L.Random
  env : L.ADSR
  envHat : L.ADSR
  envSnare : L.ADSR
  currentMidi : Int
  currentSampleRate : ℚ
  currentlyPlayingNote : Int

namespace BitCrusherVoice

/-- The base-class method `clearCurrentNote`. -/
def clearCurrentNote {L : Library} (v : BitCrusherVoice L) : BitCrusherVoice L :=
  { v with currentlyPlayingNote := -1 }

/-- The method `startNote`. -/
def startNote {L : Library} (P : VoiceParameters) (v : BitCrusherVoice L) (midiNoteNumber : Int)
    (_velocity : ℚ) : BitCrusherVoice L :=
  let pulseWidth1Percent : ℚ :=
    if P.pulseWidth1Choice = 0 then 0.125 else (if P.pulseWidth1Choice = 1 then 0.25 else 0.5)
  let pulseWidth2Percent : ℚ :=
    if P.pulseWidth2Choice = 0 then 0.125 else (if P.pulseWidth2Choice = 1 then 0.25 else 0.5)
  let freq := getMidiNoteInHertz L.powf midiNoteNumber
  let pitchOffsetFactor := L.powf 2 (P.pitchOffset / 12)
  let envParams : ADSRParameters :=
    { attack := P.attackParam, decay := P.decayParam, sustain := P.sustainParam,
      release := P.releaseParam }
  let v1 : BitCrusherVoice L :=
    { v with playing := true,
             env := L.noteOn (L.setParameters (L.setSampleRate v.env v.currentSampleRate) envParams),
             envHat := L.noteOn v.envHat,
             envSnare := L.noteOn v.envSnare }
  let v2 : BitCrusherVoice L :=
    if P.modeParam = 0 then
      { v1 with bass := v1.bass.setFrequency (freq * pitchOffsetFactor) }
    else
      { v1 with pulse1 := (v1.pulse1.setFrequency (freq * pitchOffsetFactor)).setPulseWidth
                  pulseWidth1Percent,
                pulse2 := (v1.pulse2.setFrequency (freq * pitchOffsetFactor)).setPulseWidth
                  pulseWidth2Percent }
  { v2 with currentMidi := midiNoteNumber }

/-- The method `stopNote`. -/
def stopNote {L : Library} (v : BitCrusherVoice L) (_velocity : ℚ) (allowTailOff : Bool) :
    BitCrusherVoice L :=
  if allowTailOff then
    { v with env := L.noteOff v.env, envSnare := L.noteOff v.envSnare,
             envHat := L.noteOff v.envHat }
  else
    { v.clearCurrentNote with playing := false }

/-- The LFO part of one pass of the sample loop of `renderNextBlock` (lines
262-280): the voice with the selected LFO advanced, and `lfoValue`. -/
def lfoStep {L : Library} (P : VoiceParameters) (v : BitCrusherVoice L) :
    BitCrusherVoice L × ℚ :=
  if P.typeLFO = 0 then
    ({ v with sinLFO := (Phasor.process (SinOsc.output L.sin)
                          (v.sinLFO.setFrequency P.LFORate)).1 },
     (Phasor.process (SinOsc.output L.sin) (v.sinLFO.setFrequency P.LFORate)).2)
  else if P.typeLFO = 1 then
    ({ v with triLFO := (Phasor.process TriOsc.output (v.triLFO.setFrequency P.LFORate)).1 },
     (Phasor.process TriOsc.output (v.triLFO.setFrequency P.LFORate)).2)
  else if P.typeLFO = 2 then
    ({ v with squareLFO := ((v.squareLFO.setFrequency P.LFORate).setPulseWidth 0.5).process.1 },
     ((v.squareLFO.setFrequency P.LFORate).setPulseWidth 0.5).process.2)
  else (v, 0)

/-- The mode part of one pass of the sample loop of `renderNextBlock` (lines
283-334): the voice with the sources it used advanced and the value of
`outputSample`, or `none` when the pass ends at the `continue` statement. -/
def sourceSample {L : Library} (P : VoiceParameters) (v : BitCrusherVoice L)
    (currentEnvSample : ℚ) (inAttackPhase : Bool) : Option (BitCrusherVoice L × ℚ) :=
  if P.modeParam = 2 then
    if v.currentMidi = 60 then
      let rawSample := ((L.nextFloat v.random).2 * 2 - 1) * (L.getNextSample v.envHat).2
      some ({ v with random := (L.nextFloat v.random).1,
                     envHat := (L.getNextSample v.envHat).1,
                     highHatFilter := (L.processSingleSampleRaw v.highHatFilter rawSample).1 },
            (L.processSingleSampleRaw v.highHatFilter rawSample).2)
    else if v.currentMidi = 62 then
      let rawSample := ((L.nextFloat v.random).2 * 2 - 1) * (L.getNextSample v.envSnare).2
      some ({ v with random := (L.nextFloat v.random).1,
                     envSnare := (L.getNextSample v.envSnare).1,
                     snareFilter := (L.processSingleSampleRaw v.snareFilter rawSample).1 },
            (L.processSingleSampleRaw v.snareFilter rawSample).2)
    else if v.currentMidi = 64 then
      some ({ v with random := (L.nextFloat v.random).1 },
            ((L.nextFloat v.random).2 * 2 - 1) * currentEnvSample)
    else none
  else
    if P.modeParam = 0 then
      some ({ v with bass := (Phasor.process TriOsc.output v.bass).1 },
            (Phasor.process TriOsc.output v.bass).2 * currentEnvSample)
    else if P.modeParam = 1 then
      let pulseWidthsAreEqual := decide (P.pulseWidth1Choice = P.pulseWidth2Choice)
      if pulseWidthsAreEqual then
        some ({ v with pulse1 := v.pulse1.process.1 }, v.pulse1.process.2 * currentEnvSample)
      else
        if inAttackPhase then
          some ({ v with pulse1 := v.pulse1.process.1 }, v.pulse1.process.2 * currentEnvSample)
        else
          some ({ v with pulse2 := v.pulse2.process.1 }, v.pulse2.process.2 * currentEnvSample)
    else some (v, 0)

/-- One pass of the sample loop of `renderNextBlock`, for the index
`sampleIndex`. The result is `none` when the pass divides by zero in
`sampleIndex % static_cast<int> (*rateDivide)`. -/
def renderSample {L : Library} (P : VoiceParameters) (v : BitCrusherVoice L)
    (outputBuffer : AudioSampleBuffer) (sampleIndex : Int) :
    Option (BitCrusherVoice L × AudioSampleBuffer) :=
  let currentEnvSample := (L.getNextSample v.env).2
  let inAttackPhase := decide (currentEnvSample > v.lastEnvSample)
  let v1 : BitCrusherVoice L :=
    { v with env := (L.getNextSample v.env).1, lastEnvSample := currentEnvSample }
  let lfoValue := (lfoStep P v1).2
  match sourceSample P (lfoStep P v1).1 currentEnvSample inAttackPhase with
  | none => some ((lfoStep P v1).1, outputBuffer)
  | some (v2, outputSample) =>
    let outputSample :=
      if ¬ (P.modeParam = 2) then
        bitcrushing L.powf P.bitDepth P.bitDepthLFOAmount outputSample lfoValue
      else outputSample
    if truncToInt P.rateDivide = 0 then none
    else
      let outputSample :=
        if sampleIndex.tmod (truncToInt P.rateDivide) ≠ 0 then
          outputBuffer.getSample 0 (sampleIndex - sampleIndex.tmod (truncToInt P.rateDivide))
        else outputSample
      let outputBuffer :=
        AudioSampleBuffer.addSampleToChannels sampleIndex outputSample
          outputBuffer.getNumChannels outputBuffer
      let v3 : BitCrusherVoice L :=
        if ¬ L.isActive v2.env then { v2.clearCurrentNote with playing := false } else v2
      some (v3, outputBuffer)

/-- The sample loop of `renderNextBlock`: `count` passes from `sampleIndex` on. -/
def renderLoop {L : Library} (P : VoiceParameters) :
    Nat → Int → BitCrusherVoice L → AudioSampleBuffer →
      Option (BitCrusherVoice L × AudioSampleBuffer)
  | 0, _, v, outputBuffer => some (v, outputBuffer)
  | count + 1, sampleIndex, v, outputBuffer =>
    match renderSample P v outputBuffer sampleIndex with
    | none => none
    | some (v1, outputBuffer1) => renderLoop P count (sampleIndex + 1) v1 outputBuffer1

/-- The method `renderNextBlock`. -/
def renderNextBlock {L : Library} (P : VoiceParameters) (v : BitCrusherVoice L)
    (outputBuffer : AudioSampleBuffer) (startSample numSamples : Int) :
    Option (BitCrusherVoice L × AudioSampleBuffer) :=
  if v.playing then renderLoop P numSamples.toNat startSample v outputBuffer
  else some (v, outputBuffer)

end BitCrusherVoice

/-- An implementation of `Library` for concrete evaluation: an envelope is the
list of the levels it still returns and is active while that list is not
empty, the filters pass their input through, the random generator returns
3/4 every time, `sin` is constantly 0 and `powf` is `powfFloor`. -/
def scriptedLibrary : Library where
  ADSR := List ℚ
  setSampleRate := fun e _ => e
  setParameters := fun e _ => e
  noteOn := fun e => e
  noteOff := fun e => e
  getNextSample := fun e => (e.tail, e.headD 0)
  isActive := fun e => !e.isEmpty
  IIRFilter := Unit
  processSingleSampleRaw := fun f x => (f, x)
  Random := Unit
  nextFloat := fun r => (r, 3/4)
  sin := fun _ => 0
  powf := powfFloor

/-- A sequence of `renderNextBlock` calls, each with the parameter values,
the start index and the number of samples of the call. -/
def BitCrusherVoice.renderBlocks {L : Library} :
    List (VoiceParameters × Int × Int) → BitCrusherVoice L → AudioSampleBuffer →
      Option (BitCrusherVoice L × AudioSampleBuffer)
  | [], v, outputBuffer => some (v, outputBuffer)
  | (P, startSample, numSamples) :: calls, v, outputBuffer =>
    match v.renderNextBlock P outputBuffer startSample numSamples with
    | none => none
    | some (v1, outputBuffer1) => BitCrusherVoice.renderBlocks calls v1 outputBuffer1

/-! ## The ADSR-shaped oscillator -/

/-- The data members of `class ASDROsc`: those of the base class `Phasor` and
the four shape parameters. -/
structure ASDROsc extends Phasor where
  attack : ℚ
  decay : ℚ
  sustain : ℚ
  release : ℚ

namespace ASDROsc

/-- The `output` override of `class ASDROsc`. The result is `none` when the
branch taken divides by zero, where the float result is infinite or not a
number. -/
def output (o : ASDROsc) (p : ℚ) : Option ℚ :=
  if p < o.attack then
    if o.attack = 0 then none else some (p / o.attack)
  else if p ≥ o.attack ∧ p < o.attack + o.decay then
    if o.decay = 0 then none else some (1 + (o.sustain - 1) * ((p - o.attack) / o.decay))
  else if p ≥ o.attack + o.decay ∧ p < o.attack + o.decay + o.sustain then
    some o.sustain
  else if p ≥ o.attack + o.decay + o.sustain ∧ p ≤ 1 then
    let releasePhaseStart := o.attack + o.decay + o.sustain
    let releaseDuration := 1 - releasePhaseStart
    if releaseDuration = 0 then none
    else some (o.sustain * (1 - (p - releasePhaseStart) / releaseDuration))
  else some 0

def setAttack (o : ASDROsc) (attack : ℚ) : ASDROsc := { o with attack := attack }

def setSustain (o : ASDROsc) (sustain : ℚ) : ASDROsc := { o with sustain := sustain }

def setDecay (o : ASDROsc) (decay : ℚ) : ASDROsc := { o with decay := decay }

def setRelease (o : ASDROsc) (release : ℚ) : ASDROsc := { o with release := release }

def setASDR (o : ASDROsc) (a s d r : ℚ) : ASDROsc :=
  (((o.setAttack a).setSustain s).setDecay d).setRelease r

end ASDROsc

/-! ## The parameter layout -/

/-- The choices of the parameter `typeLFO` ("LFO Type") in
`createParameterLayout`, in the order of their indices. -/
def typeLFOChoices : List String := ["Square", "Sine", "Triangle"]

/-! ## Bookkeeping of emitted notes -/

/-- The note that sounds according to `lastNote`: none for `-1`. -/
def soundingOf (lastNote : Int) : Option Int :=
  if lastNote = -1 then none else some lastNote

/-- Reads a list of emitted events from the note that sounds before them to
the note that sounds after them. A note-on is accepted only while no note
sounds, a note-off only for the note that sounds; the result is `none` when an
event is not accepted. -/
def trackNotes : Option Int → List MidiEvent → Option (Option Int)
  | sounding, [] => some sounding
  | sounding, e :: es =>
    match e.message, sounding with
    | .noteOn _ n _, none => trackNotes (some n) es
    | .noteOff _ n, some m => if n = m then trackNotes none es else none
    | _, _ => none

/-! ## IEEE 754 binary arithmetic -/

/-- A binary floating-point format: the number of significand bits, the
exponent of the least positive value and the exponent of the greatest binade. -/
structure FloatFormat where
  precision : Int
  emin : Int
  emax : Int

/-- The format of `float`. -/
def binary32 : FloatFormat := { precision := 24, emin := -149, emax := 127 }

/-- The format of `double`. -/
def binary64 : FloatFormat := { precision := 53, emin := -1074, emax := 1023 }

/-- The integer nearest to `y`, a tie going to the even one. -/
def roundHalfEven (y : ℚ) : Int :=
  if y - ⌊y⌋ < 1/2 then ⌊y⌋
  else if 1/2 < y - ⌊y⌋ then ⌊y⌋ + 1
  else if ⌊y⌋ % 2 = 0 then ⌊y⌋ else ⌊y⌋ + 1

namespace FloatFormat

/-- The search for the exponent of the unit in the last place: downwards from
`e`, whose binade starts at `threshold`, for at most `fuel` steps. -/
def ulpScan : Nat → Int → ℚ → ℚ → Int
  | 0, e, _, _ => e
  | fuel + 1, e, threshold, x =>
    if threshold ≤ x then e else ulpScan fuel (e - 1) (threshold / 2) x

/-- The exponent of the unit in the last place of the values from `2 ^ (emax + 1)` on. -/
def etop (F : FloatFormat) : Int := F.emax + 2 - F.precision

/-- The exponent of the unit in the last place at `x`: `e - precision + 1` for
`2 ^ e ≤ |x| < 2 ^ (e + 1)`, and `emin` in the subnormal range. -/
def ulpExponent (F : FloatFormat) (x : ℚ) : Int :=
  ulpScan (F.etop - F.emin).toNat F.etop (2 ^ (F.emax + 1)) |x|

/-- The multiple of the unit in the last place nearest to `x`, a tie going to
the even multiple (the exponent is not bounded above). -/
def nearest (F : FloatFormat) (x : ℚ) : ℚ :=
  (roundHalfEven (x / 2 ^ F.ulpExponent x) : ℚ) * 2 ^ F.ulpExponent x

/-- Rounding of the exact result `x` of an operation to the format, in the
mode round-to-nearest-even; `none` when the result overflows. -/
def round (F : FloatFormat) (x : ℚ) : Option ℚ :=
  if |F.nearest x| < 2 ^ (F.emax + 1) then some (F.nearest x) else none

end FloatFormat

/-! ## The bit-crusher, the oscillators and the trigger timing in rounded arithmetic -/

namespace Binary32

/-- The local `modulatedBitDepth` of `bitcrushing` after the call of `jlimit`,
in single precision. -/
def modulatedBitDepth (bitDepth bitDepthLFOAmount lfoValue : ℚ) : Option ℚ :=
  (binary32.round (lfoValue * bitDepthLFOAmount)).bind fun modulation =>
  (binary32.round (bitDepth + modulation)).bind fun modulatedBitDepth =>
  some (jlimit 1 24 modulatedBitDepth)

/-- The local `bitDepthPow` of `bitcrushing`, in single precision. -/
def bitDepthPow (powf : ℚ → ℚ → ℚ) (bitDepth bitDepthLFOAmount lfoValue : ℚ) : Option ℚ :=
  (modulatedBitDepth bitDepth bitDepthLFOAmount lfoValue).bind fun modulatedBitDepth =>
  binary32.round (powf 2 modulatedBitDepth - 1)

/-- The last statement of `bitcrushing`, `floorf (sample * bitDepthPow + 0.5f) / bitDepthPow`,
in single precision. -/
def quantize (bitDepthPow sample : ℚ) : Option ℚ :=
  (binary32.round (sample * bitDepthPow)).bind fun scaled =>
  (binary32.round (scaled + 0.5)).bind fun shifted =>
  if bitDepthPow = 0 then none else binary32.round ((⌊shifted⌋ : ℚ) / bitDepthPow)

/-- The method `BitCrusherVoice::bitcrushing` in single-precision arithmetic:
every operation is rounded to `binary32`, and the result is `none` when an
operation overflows or divides by zero. -/
def bitcrushing (powf : ℚ → ℚ → ℚ) (bitDepth bitDepthLFOAmount : ℚ) (sample lfoValue : ℚ) :
    Option ℚ :=
  (bitDepthPow powf bitDepth bitDepthLFOAmount lfoValue).bind fun bitDepthPow =>
  quantize bitDepthPow sample

/-- The `output` override of `class TriOsc`, `fabsf (p - 0.5f) - 0.25f`, in
single precision. -/
def TriOsc.output (p : ℚ) : Option ℚ :=
  (binary32.round (p - 0.5)).bind fun x => binary32.round (|x| - 0.25)

/-- The sample of the bass branch of `renderNextBlock`,
`bass.process() * currentEnvSample`, in single precision, for the phase after
the advance. -/
def bassSample (phase currentEnvSample : ℚ) : Option ℚ :=
  (TriOsc.output phase).bind fun x => binary32.round (x * currentEnvSample)

/-- The local `releasePhaseStart` of `ASDROsc::output`,
`attack + decay + sustain`, in single precision. -/
def ASDROsc.releasePhaseStart (o : ASDROsc) : Option ℚ :=
  (binary32.round (o.attack + o.decay)).bind fun decayEnd =>
  binary32.round (decayEnd + o.sustain)

/-- The `output` override of `class ASDROsc` in single-precision arithmetic:
every operation is rounded to `binary32`, and the result is `none` when an
operation overflows or divides by zero. -/
def ASDROsc.output (o : ASDROsc) (p : ℚ) : Option ℚ :=
  if p < o.attack then
    if o.attack = 0 then none else binary32.round (p / o.attack)
  else
    (binary32.round (o.attack + o.decay)).bind fun decayEnd =>
    if p ≥ o.attack ∧ p < decayEnd then
      if o.decay = 0 then none
      else
        (binary32.round (o.sustain - 1)).bind fun drop =>
        (binary32.round (p - o.attack)).bind fun elapsed =>
        (binary32.round (elapsed / o.decay)).bind fun ratio =>
        (binary32.round (drop * ratio)).bind fun fall =>
        binary32.round (1 + fall)
    else
      (binary32.round (decayEnd + o.sustain)).bind fun releasePhaseStart =>
      if p ≥ decayEnd ∧ p < releasePhaseStart then some o.sustain
      else if p ≥ releasePhaseStart ∧ p ≤ 1 then
        (binary32.round (1 - releasePhaseStart)).bind fun releaseDuration =>
        if releaseDuration = 0 then none
        else
          (binary32.round (p - releasePhaseStart)).bind fun elapsed =>
          (binary32.round (elapsed / releaseDuration)).bind fun ratio =>
          (binary32.round (1 - ratio)).bind fun level =>
          binary32.round (o.sustain * level)
      else some 0

end Binary32

namespace Binary64

/-- The local `quarterNoteSamples` of `processBlock`,
`sampleRate / (bpm / 60.0)`, in double precision. -/
def Arpeggiator.quarterNoteSamples (bpm sampleRate : ℚ) : Option ℚ :=
  (binary64.round (bpm / 60)).bind fun quarterNotesPerSecond =>
  if quarterNotesPerSecond = 0 then none
  else binary64.round (sampleRate / quarterNotesPerSecond)

/-- The search loop `for (int i = 0; i < positionCount; i += skip)` of
`processBlock` in double precision, entered at index `i` with the current value
of `samplesToNextNote`; `fuel` bounds the number of iterations. -/
def Arpeggiator.nextNoteLoop (positionInQuarterNotes quarterNoteSamples : ℚ) (skip : Int) :
    Nat → Int → ℚ → Option ℚ
  | 0, _, samplesToNextNote => some samplesToNextNote
  | fuel + 1, i, samplesToNextNote =>
    if i < NesSynth.Arpeggiator.positionCount then
      (binary64.round (positionInQuarterNotes - (⌊positionInQuarterNotes⌋ : ℚ))).bind fun frac =>
      (binary64.round (NesSynth.Arpeggiator.positions.getD i.toNat 0 - frac)).bind
        fun distanceToNextNote =>
      (binary64.round (distanceToNextNote * quarterNoteSamples)).bind fun samplesToNextNote =>
      if samplesToNextNote ≥ 0 then some samplesToNextNote
      else Arpeggiator.nextNoteLoop positionInQuarterNotes quarterNoteSamples skip fuel (i + skip)
        samplesToNextNote
    else some samplesToNextNote

/-- The value of `samplesToNextNote` after the search loop, in double precision. -/
def Arpeggiator.samplesToNextNote (positionInQuarterNotes bpm sampleRate : ℚ)
    (rate numSamples : Int) : Option ℚ :=
  (Arpeggiator.quarterNoteSamples bpm sampleRate).bind fun quarterNoteSamples =>
  Arpeggiator.nextNoteLoop positionInQuarterNotes quarterNoteSamples
    (NesSynth.Arpeggiator.skip rate) NesSynth.Arpeggiator.positions.length 0 (numSamples : ℚ)

/-- The method `processBlock` with its `double` arithmetic in double
precision: every operation is rounded to `binary64`, and the result is `none`
when an operation overflows or divides by zero. -/
def Arpeggiator.processBlock (a : Arpeggiator) (numSamples : Int) (midiMessages : MidiBuffer) :
    Option NesSynth.Arpeggiator.BlockResult :=
  let positionInQuarterNotes := a.getPositionInQuarterNotes
  let bpm := a.getBPM
  let wasPlaying := a.isPlaying
  let isPlaying := a.getIsPlaying
  let noteIndex := if !wasPlaying && isPlaying then 0 else a.noteIndex
  let notes := NesSynth.Arpeggiator.updateNotes a.notes midiMessages
  (Arpeggiator.quarterNoteSamples bpm a.sampleRate).bind fun quarterNoteSamples =>
  (Arpeggiator.nextNoteLoop positionInQuarterNotes quarterNoteSamples
    (NesSynth.Arpeggiator.skip a.rate) NesSynth.Arpeggiator.positions.length 0
    (numSamples : ℚ)).bind fun samplesToNextNote =>
  let a1 : Arpeggiator :=
    { a with positionInQuarterNotes := positionInQuarterNotes, isPlaying := isPlaying,
             noteIndex := noteIndex, notes := notes }
  let r : NesSynth.Arpeggiator.BlockResult :=
    if samplesToNextNote < (numSamples : ℚ) then
      let t := truncToInt samplesToNextNote
      let r1 : NesSynth.Arpeggiator.BlockResult :=
        if a1.lastNote ≠ -1 then
          { arp := { a1 with lastNote := -1 },
            midiMessages := MidiBuffer.addEvent midiMessages (.noteOff 1 a1.lastNote) t,
            added := [⟨t, .noteOff 1 a1.lastNote⟩] }
        else { arp := a1, midiMessages := midiMessages, added := [] }
      if notes.size > 0 then
        let lastNote := notes.get r1.arp.noteIndex
        { arp := { r1.arp with lastNote := lastNote,
                               noteIndex := (r1.arp.noteIndex + 1).tmod notes.size },
          midiMessages := MidiBuffer.addEvent r1.midiMessages (.noteOn 1 lastNote 127) t,
          added := r1.added ++ [⟨t, .noteOn 1 lastNote 127⟩] }
      else r1
    else { arp := a1, midiMessages := midiMessages, added := [] }
  if quarterNoteSamples = 0 then none
  else
    (binary64.round ((numSamples : ℚ) / quarterNoteSamples)).bind fun advance =>
    (binary64.round (r.arp.positionInQuarterNotes + advance)).bind fun newPosition =>
    some { r with arp := { r.arp with positionInQuarterNotes := newPosition } }

end Binary64

/-! ## Concrete inputs -/

/-- A phasor at phase 1/2 whose frequency is set to half the sample rate. -/
def halfRatePhasor : Phasor :=
  ({ frequency := 0, sampleRate := 48000, phase := 1/2, phaseDelta := 0, baseFrequency := 0 } :
    Phasor).setFrequency 24000

/-- A phasor at phase 0 whose frequency is set to three times the sample rate. -/
def tripleRatePhasor : Phasor :=
  ({ frequency := 0, sampleRate := 16000, phase := 0, phaseDelta := 0, baseFrequency := 0 } :
    Phasor).setFrequency 48000

/-- An arpeggiator holding the chord 60, 64, 67 with the cursor at 0. -/
def chordArp : Arpeggiator :=
  { sampleRate := 48000, positionInQuarterNotes := 0, rate := 1, noteIndex := 0, lastNote := -1,
    isPlaying := false, fallbackBPM := 80, playHead := none, notes := [60, 64, 67] }

/-- A callback of `numSamples` samples at host position `p` with 48 kHz audio,
120 BPM and the rate 4 (sixteenth notes of 6000 samples), with the given
transport flag and incoming events. -/
def hostBlock (p : ℚ) (playing : Bool) (numSamples : Int) (midiMessages : MidiBuffer) : Block :=
  { fallbackBPM := 80, playHead := some ⟨some ⟨some p, some 120, playing⟩⟩, rate := 4,
    numSamples := numSamples, midiMessages := midiMessages }

/-- The four sixteenth-note callbacks of one quarter note, without incoming events. -/
def sixteenthBlocks : List Block :=
  [hostBlock 0 true 6000 [], hostBlock (1/4) true 6000 [], hostBlock (1/2) true 6000 [],
   hostBlock (3/4) true 6000 []]

/-- One callback in which the three keys 60, 64, 67 go down. -/
def chordDown : List Block :=
  [hostBlock 0 true 6000 [⟨0, .noteOn 1 60 100⟩, ⟨0, .noteOn 1 64 100⟩, ⟨0, .noteOn 1 67 100⟩]]

/-- Three keys go down, two triggers pass, then two keys are released in the
callback of the third trigger. -/
def releaseAtTrigger : List Block :=
  chordDown ++
  [hostBlock (1/4) true 6000 [],
   hostBlock (1/2) true 6000 [⟨10, .noteOff 1 64⟩, ⟨10, .noteOff 1 67⟩]]

/-- Three keys go down, two triggers pass, then two keys are released in a
short callback that lies between two triggers. -/
def releaseBetweenTriggers : List Block :=
  chordDown ++
  [hostBlock (1/4) true 6000 [],
   hostBlock (3/10) true 100 [⟨10, .noteOff 1 64⟩, ⟨10, .noteOff 1 67⟩]]

/-- The host plays, reports a stop for one callback, and plays again. -/
def stopThenStart : List Block :=
  [hostBlock 0 true 6000 [], hostBlock (1/4) false 6000 [], hostBlock (1/2) true 6000 []]

/-- The chord arpeggiator configured for a callback at host position 1/10. -/
def offGridArp : Arpeggiator := chordArp.configure (hostBlock (1/10) true 6000 [])

/-- A raw incoming note-on on channel 2. -/
def rawNoteOn : MidiEvent := ⟨5, .noteOn 2 72 100⟩

/-- Voice parameters with the given mode and divisor: bit depth 4, no LFO
modulation of the depth, pulse widths 12.5% and 50%. -/
def voiceParams (mode rateDivide : ℚ) : VoiceParameters :=
  { attackParam := 1/100, decayParam := 1/4, sustainParam := 1/2, releaseParam := 1,
    bitDepth := 4, rateDivide := rateDivide, pulseWidth1Choice := 0, pulseWidth2Choice := 2,
    pitchOffset := 0, modeParam := mode, bitDepthLFOAmount := 0, LFORate := 1/2, typeLFO := 0 }

/-- A phasor that stays at phase 0. -/
def restPhasor : Phasor :=
  { frequency := 0, sampleRate := 48000, phase := 0, phaseDelta := 0, baseFrequency := 0 }

/-- A playing voice over `scriptedLibrary` whose envelopes still return the
levels `env`, assigned the note `currentMidi`. -/
def scriptedVoice (env : List ℚ) (currentMidi : Int) : BitCrusherVoice scriptedLibrary :=
  { playing := true, lastEnvSample := 0, highHatFilter := (), snareFilter := (),
    sinLFO := restPhasor, bass := restPhasor, triLFO := restPhasor,
    pulse1 := { toPhasor := restPhasor, pulseWidth := 1/8 },
    pulse2 := { toPhasor := restPhasor, pulseWidth := 1/2 },
    squareLFO := { toPhasor := restPhasor, pulseWidth := 1/2 },
    random := (), env := env, envHat := env, envSnare := env, currentMidi := currentMidi,
    currentSampleRate := 48000, currentlyPlayingNote := currentMidi }

/-- A cleared stereo buffer. -/
def clearedBuffer : AudioSampleBuffer := { numChannels := 2, data := fun _ _ => 0 }

/-- A stereo buffer that already holds the value 1 at sample index 0 of both
channels (summed in by another voice) and 0 elsewhere. -/
def mixedBuffer : AudioSampleBuffer :=
  { numChannels := 2, data := fun _ i => if i = 0 then 1 else 0 }

/-- A playing voice over `scriptedLibrary` as `scriptedVoice`, whose two pulse
oscillators advance by a quarter of a cycle per call of `process`. -/
def pulseVoice (env : List ℚ) : BitCrusherVoice scriptedLibrary :=
  { scriptedVoice env 48 with
    pulse1 := { toPhasor := { restPhasor with phaseDelta := 1/4 }, pulseWidth := 1/8 },
    pulse2 := { toPhasor := { restPhasor with phaseDelta := 1/4 }, pulseWidth := 1/2 } }

/-- An `ASDROsc` whose attack, decay and sustain add up to exactly 1. -/
def fullCycleOsc : ASDROsc :=
  { toPhasor := restPhasor, attack := 1/2, decay := 1/4, sustain := 1/4, release := 1/10 }

/-- An `ASDROsc` with the values of the preset "Chord": attack 0.004, sustain
0.02, decay 0.04, release 0.001. -/
def chordOsc : ASDROsc :=
  ({ toPhasor := restPhasor, attack := 0, decay := 0, sustain := 0, release := 0 } :
    ASDROsc).setASDR 0.004 0.02 0.04 0.001

/-- Three keys go down and one trigger passes; then all three keys are
released in a short callback between two triggers. -/
def allReleased : List Block :=
  chordDown ++
  [hostBlock (3/10) true 100 [⟨10, .noteOff 1 60⟩, ⟨10, .noteOff 1 64⟩, ⟨10, .noteOff 1 67⟩]]

/-- The oscillator `chordOsc` with another release value. -/
def slowReleaseOsc : ASDROsc := chordOsc.setRelease (1/2)

/-- An `ASDROsc` whose attack, decay and sustain are single-precision values
with a sum just below 1: `0.5 + 0.25 + (0.25 - 2^-26)`. -/
def nearlyFullCycleOsc : ASDROsc :=
  { toPhasor := restPhasor, attack := 1/2, decay := 1/4, sustain := 1/4 - 1/2^26, release := 1/10 }

/-- An `ASDROsc` with attack, decay and sustain 1/4, which leaves a release
of a quarter of the cycle. -/
def quarterOsc : ASDROsc :=
  { toPhasor := restPhasor, attack := 1/4, decay := 1/4, sustain := 1/4, release := 1/10 }

open Arpeggiator

theorem getIsPlaying_true (a : Arpeggiator) : a.getIsPlaying = true := by
  unfold getIsPlaying
  split
  · split
    · split_ifs with h
      · exact h
      · rfl
    · rfl
  · rfl

theorem size_pos_iff (s : SortedSet) : s.size > 0 ↔ s ≠ [] := by
  unfold SortedSet.size
  cases s <;> simp

theorem processBlock_notes (a : Arpeggiator) (n : Int) (m : MidiBuffer) :
    (a.processBlock n m).arp.notes = updateNotes a.notes m := by
  unfold processBlock
  simp only []
  split_ifs <;> rfl

theorem processBlock_isPlaying (a : Arpeggiator) (n : Int) (m : MidiBuffer) :
    (a.processBlock n m).arp.isPlaying = true := by
  unfold processBlock
  simp only []
  split_ifs <;> simp [getIsPlaying_true]

theorem processBlock_noFire (a : Arpeggiator) (n : Int) (m : MidiBuffer) (h : ¬ a.fires n) :
    (a.processBlock n m).added = [] ∧ (a.processBlock n m).midiMessages = m ∧
    (a.processBlock n m).arp.noteIndex = (if !a.isPlaying then 0 else a.noteIndex) ∧
    (a.processBlock n m).arp.lastNote = a.lastNote := by
  unfold fires at h
  unfold processBlock
  simp only [if_neg h, getIsPlaying_true, Bool.and_true]
  simp

theorem processBlock_fire (a : Arpeggiator) (n : Int) (m : MidiBuffer) (h : a.fires n)
    (hne : updateNotes a.notes m ≠ []) :
    (a.processBlock n m).arp.noteIndex
        = ((if !a.isPlaying then 0 else a.noteIndex) + 1).tmod (updateNotes a.notes m).size ∧
    (a.processBlock n m).arp.lastNote
        = (updateNotes a.notes m).get (if !a.isPlaying then 0 else a.noteIndex) ∧
    (a.processBlock n m).added
        = (if a.lastNote ≠ -1 then [⟨a.triggerOffset n, .noteOff 1 a.lastNote⟩] else []) ++
          [⟨a.triggerOffset n,
            .noteOn 1 ((updateNotes a.notes m).get (if !a.isPlaying then 0 else a.noteIndex)) 127⟩] := by
  unfold fires at h
  have hs : (updateNotes a.notes m).size > 0 := (size_pos_iff _).2 hne
  unfold processBlock triggerOffset
  simp only [if_pos h, if_pos hs, getIsPlaying_true, Bool.and_true]
  split_ifs <;> simp

theorem processBlock_fire_empty (a : Arpeggiator) (n : Int) (m : MidiBuffer) (h : a.fires n)
    (he : updateNotes a.notes m = []) :
    (a.processBlock n m).arp.noteIndex = (if !a.isPlaying then 0 else a.noteIndex) ∧
    (a.processBlock n m).arp.lastNote = -1 ∧
    (a.processBlock n m).added
        = (if a.lastNote ≠ -1 then [⟨a.triggerOffset n, .noteOff 1 a.lastNote⟩] else []) := by
  unfold fires at h
  have hs : ¬ (updateNotes a.notes m).size > 0 := by rw [size_pos_iff]; simp [he]
  unfold processBlock triggerOffset
  simp only [if_pos h, if_neg hs, getIsPlaying_true, Bool.and_true]
  split_ifs with h1 <;> simp <;> exact not_not.mp h1

theorem configure_fields (a : Arpeggiator) (b : Block) :
    (a.configure b).notes = a.notes ∧ (a.configure b).noteIndex = a.noteIndex ∧
    (a.configure b).isPlaying = a.isPlaying ∧ (a.configure b).lastNote = a.lastNote ∧
    (a.configure b).sampleRate = a.sampleRate := by
  simp [configure, setRate, setPlayHead, setFallbackBPM]

theorem noteOnNumbers_append (xs ys : List MidiEvent) :
    noteOnNumbers (xs ++ ys) = noteOnNumbers xs ++ noteOnNumbers ys := by
  simp [noteOnNumbers]

/-- One callback on a non-empty held-note set: either nothing is triggered, or
one note-on for the slot under the cursor is emitted and the cursor advances. -/
theorem callback_step (a : Arpeggiator) (b : Block)
    (hne : updateNotes a.notes b.midiMessages ≠ []) :
    (a.callback b).arp.notes = updateNotes a.notes b.midiMessages ∧
    (a.callback b).arp.isPlaying = true ∧
    ((¬ (a.configure b).fires b.numSamples ∧ noteOnNumbers (a.callback b).added = [] ∧
        (a.callback b).arp.noteIndex = (if !a.isPlaying then 0 else a.noteIndex)) ∨
     ((a.configure b).fires b.numSamples ∧ noteOnNumbers (a.callback b).added
          = [(updateNotes a.notes b.midiMessages).get (if !a.isPlaying then 0 else a.noteIndex)] ∧
        (a.callback b).arp.noteIndex
          = ((if !a.isPlaying then 0 else a.noteIndex) + 1).tmod
              (updateNotes a.notes b.midiMessages).size)) := by
  obtain ⟨hn, hi, hp, hl, -⟩ := configure_fields a b
  unfold callback
  refine ⟨by rw [processBlock_notes, hn], processBlock_isPlaying _ _ _, ?_⟩
  by_cases hf : (a.configure b).fires b.numSamples
  · right
    rw [← hn] at hne
    obtain ⟨h1, -, h3⟩ := processBlock_fire _ _ b.midiMessages hf hne
    rw [h1, h3, hn, hi, hp]
    refine ⟨hf, ?_, rfl⟩
    split_ifs <;> simp [noteOnNumbers, MidiMessage.isNoteOn, MidiMessage.getNoteNumber]
  · left
    obtain ⟨h1, -, h3, -⟩ := processBlock_noFire _ _ b.midiMessages hf
    rw [h1, h3, hi, hp]
    exact ⟨hf, rfl, rfl⟩

theorem sortedSet_get_eq (S : SortedSet) (i : Nat) (hi : i < S.length) :
    S.get (i : Int) = S[i] := by
  unfold SortedSet.get SortedSet.size
  rw [if_pos ⟨by omega, by omega⟩]
  simp [List.getD_eq_getElem?_getD, hi]

/-- In a strictly ascending list the element at index `i` has exactly `i` smaller elements. -/
theorem sorted_rank : ∀ (S : List Int), S.Sorted (· < ·) → ∀ (i : Nat) (hi : i < S.length),
    (S.filter (fun y => decide (y < S[i]))).length = i
  | [], _, i, hi => by simp at hi
  | x :: xs, hS, 0, _ => by
    have hx : ∀ y ∈ xs, x < y := (List.sorted_cons.1 hS).1
    have : xs.filter (fun y => decide (y < x)) = [] := by
      rw [List.filter_eq_nil_iff]
      intro y hy
      have := hx y hy
      simp; omega
    simp [this]
  | x :: xs, hS, i + 1, hi => by
    have hx : ∀ y ∈ xs, x < y := (List.sorted_cons.1 hS).1
    have hi1 : i < xs.length := by simpa using hi
    have ih := sorted_rank xs (List.sorted_cons.1 hS).2 i hi1
    have hlt : x < xs[i] := hx _ (List.getElem_mem _)
    simp [hlt, ih]

theorem run_round_robin_aux (S : SortedSet) (hne : S ≠ []) :
    ∀ (bs : List Block) (a : Arpeggiator), a.notes = S → 0 ≤ a.noteIndex →
      a.noteIndex < S.size → (a.isPlaying = true ∨ a.noteIndex = 0) →
      (∀ b ∈ bs, updateNotes S b.midiMessages = S) →
      (noteOnNumbers (a.run bs).2).length = a.triggers bs ∧
      ∀ (k : Nat), k < (noteOnNumbers (a.run bs).2).length →
        (noteOnNumbers (a.run bs).2).getD k 0 = S.get ((a.noteIndex + (k : Int)) % S.size) := by
  intro bs
  induction bs with
  | nil =>
    intro a _ _ _ _ _
    refine ⟨by simp [run, triggers, noteOnNumbers], ?_⟩
    intro k hk
    simp [run, noteOnNumbers] at hk
  | cons b bs ih =>
    intro a hS h0 hlt hplay hfix
    have hb : updateNotes a.notes b.midiMessages = S := by
      rw [hS]; exact hfix b (List.mem_cons_self _ _)
    have hidx : (if !a.isPlaying then 0 else a.noteIndex) = a.noteIndex := by
      rcases hplay with h | h
      · simp [h]
      · simp [h]
    have hspos : 0 < S.size := (size_pos_iff S).2 hne
    obtain ⟨hn, hp, hcase⟩ := callback_step a b (by rw [hb]; exact hne)
    rw [hb] at hn hcase
    rw [hidx] at hcase
    have hfix2 : ∀ b ∈ bs, updateNotes S b.midiMessages = S :=
      fun c hc => hfix c (List.mem_cons_of_mem _ hc)
    simp only [run, triggers, noteOnNumbers_append]
    rcases hcase with ⟨hf, he, hi⟩ | ⟨hf, he, hi⟩
    · rw [he, if_neg hf]
      simp only [List.nil_append]
      obtain ⟨ih1, ih2⟩ := ih (a.callback b).arp hn (by rw [hi]; exact h0)
        (by rw [hi]; exact hlt) (Or.inl hp) hfix2
      refine ⟨by rw [ih1]; omega, ?_⟩
      intro k hk
      rw [ih2 k hk, hi]
    · rw [he, if_pos hf]
      have hmod : (a.noteIndex + 1).tmod S.size = (a.noteIndex + 1) % S.size := by
        rw [Int.tmod_eq_emod (by omega) (by omega)]
      rw [hmod] at hi
      obtain ⟨ih1, ih2⟩ := ih (a.callback b).arp hn
        (by rw [hi]; exact Int.emod_nonneg _ (by omega))
        (by rw [hi]; exact Int.emod_lt_of_pos _ hspos) (Or.inl hp) hfix2
      refine ⟨by simp only [List.singleton_append, List.length_cons]; rw [ih1]; omega, ?_⟩
      intro k hk
      cases k with
      | zero =>
        simp
        rw [Int.emod_eq_of_lt h0 hlt]
      | succ j =>
        simp only [List.singleton_append, List.length_cons, Nat.add_lt_add_iff_right] at hk
        have := ih2 j hk
        simp only [List.singleton_append, List.getD_cons_succ]
        rw [this, hi]
        congr 1
        rw [Int.emod_add_emod]
        congr 1
        push_cast
        ring

theorem positions_getD (j : Nat) (hj : j ≤ 8) : positions.getD j 0 = (j : ℚ) / 8 := by
  interval_cases j <;> norm_num [positions]

theorem positionCount_eq : positionCount = 9 := by decide

/-- C1: on a non-empty held-note set that no callback changes, with the cursor
`noteIndex` at 0, the `k`-th trigger of `processBlock` (counting from 0) emits a
note-on, and its note is the `(k mod n)`-th smallest of the `n` held notes: it is
a held note with exactly `k mod n` held notes below it. -/
theorem arp_round_robin (a : Arpeggiator) (bs : List Block)
    (hsorted : a.notes.Sorted (· < ·)) (hne : a.notes ≠ []) (hidx : a.noteIndex = 0)
    (hfix : ∀ b ∈ bs, updateNotes a.notes b.midiMessages = a.notes)
    (k : Nat) (hk : k < a.triggers bs) :
    ∃ x : Int, (noteOnNumbers (a.run bs).2)[k]? = some x ∧ x ∈ a.notes ∧
      (a.notes.filter (fun y => decide (y < x))).length = k % a.notes.length := by
  have hpos : 0 < a.notes.length := List.length_pos.2 hne
  obtain ⟨hlen, hget⟩ := run_round_robin_aux a.notes hne bs a rfl (by omega)
    (by rw [hidx]; exact (size_pos_iff _).2 hne) (Or.inr hidx) hfix
  rw [← hlen] at hk
  have hmod : k % a.notes.length < a.notes.length := Nat.mod_lt _ hpos
  refine ⟨a.notes[k % a.notes.length], ?_, List.getElem_mem _, sorted_rank _ hsorted _ hmod⟩
  have h1 := hget k hk
  rw [hidx, Int.zero_add] at h1
  have h2 : ((k : Int) % a.notes.size) = ((k % a.notes.length : Nat) : Int) := by
    unfold SortedSet.size
    exact (Int.natCast_mod k a.notes.length).symm
  rw [h2, sortedSet_get_eq _ _ hmod] at h1
  rw [← h1, List.getD_eq_getElem?_getD, List.getElem?_eq_getElem hk]
  rfl

theorem arp_round_robin_witness :
    noteOnNumbers (chordArp.run sixteenthBlocks).2 = [60, 64, 67, 60] ∧
    ∃ x : Int, (noteOnNumbers (chordArp.run sixteenthBlocks).2)[3]? = some x ∧
      x ∈ chordArp.notes ∧
      (chordArp.notes.filter (fun y => decide (y < x))).length = 3 % chordArp.notes.length :=
  ⟨by decide!,
   arp_round_robin chordArp sixteenthBlocks (by decide) (by decide) rfl (by decide!) 3
     (by decide!)⟩

/-- C2 (the code at the failing input): after two triggers on the chord
60, 64, 67 the cursor is 2; when 64 and 67 are released in the callback of the
third trigger the held set is 60 alone, slot 2 is out of range and the note-on
carries the default value 0, which is not a held note. -/
theorem stale_cursor_emits_unheld_note :
    noteOnNumbers ((chordArp.prepareToPlay 48000).run releaseAtTrigger).2 = [60, 64, 0] ∧
    ((chordArp.prepareToPlay 48000).run releaseAtTrigger).1.notes = [60] := by
  decide!

/-- C3 (counterexample): after two triggers on the chord 60, 64, 67 and a
callback without trigger in which 64 and 67 are released, the held set is 60
alone and the cursor is still 2. -/
theorem noteIndex_out_of_range :
    ((chordArp.prepareToPlay 48000).run releaseBetweenTriggers).1.notes = [60] ∧
    ((chordArp.prepareToPlay 48000).run releaseBetweenTriggers).1.noteIndex = 2 ∧
    ¬ (((chordArp.prepareToPlay 48000).run releaseBetweenTriggers).1.noteIndex
        < ((chordArp.prepareToPlay 48000).run releaseBetweenTriggers).1.notes.size) := by
  decide!

theorem callback_noteIndex_nonneg (a : Arpeggiator) (b : Block) (h : 0 ≤ a.noteIndex) :
    0 ≤ (a.callback b).arp.noteIndex := by
  obtain ⟨hn, hi, hp, -, -⟩ := configure_fields a b
  have hidx : 0 ≤ (if !a.isPlaying then 0 else a.noteIndex) := by split_ifs <;> omega
  unfold callback
  by_cases hf : (a.configure b).fires b.numSamples
  · by_cases he : updateNotes (a.configure b).notes b.midiMessages = []
    · rw [(processBlock_fire_empty _ _ _ hf he).1, hi, hp]; exact hidx
    · rw [(processBlock_fire _ _ _ hf he).1, hi, hp]
      have hs := (size_pos_iff _).2 he
      rw [Int.tmod_eq_emod (by omega) (by omega)]
      exact Int.emod_nonneg _ (by omega)
  · rw [(processBlock_noFire _ _ b.midiMessages hf).2.2.1, hi, hp]; exact hidx

theorem run_noteIndex_nonneg : ∀ (bs : List Block) (a : Arpeggiator), 0 ≤ a.noteIndex →
    0 ≤ (a.run bs).1.noteIndex
  | [], _, h => h
  | b :: bs, a, h => run_noteIndex_nonneg bs (a.callback b).arp (callback_noteIndex_nonneg a b h)

/-- C3 (amended): after `prepareToPlay` and after every subsequent callback the
cursor satisfies `0 ≤ noteIndex`, and after every callback that emitted a
note-on the cursor is below the size of the held-note set. -/
theorem noteIndex_invariant (a0 : Arpeggiator) (sampleRate : ℚ) (bs : List Block) (b : Block) :
    0 ≤ ((a0.prepareToPlay sampleRate).run bs).1.noteIndex ∧
    0 ≤ (((a0.prepareToPlay sampleRate).run bs).1.callback b).arp.noteIndex ∧
    (noteOnNumbers (((a0.prepareToPlay sampleRate).run bs).1.callback b).added ≠ [] →
      (((a0.prepareToPlay sampleRate).run bs).1.callback b).arp.noteIndex
        < (((a0.prepareToPlay sampleRate).run bs).1.callback b).arp.notes.size) := by
  have h0 : 0 ≤ ((a0.prepareToPlay sampleRate).run bs).1.noteIndex :=
    run_noteIndex_nonneg bs _ (by simp [prepareToPlay])
  refine ⟨h0, callback_noteIndex_nonneg _ b h0, ?_⟩
  generalize ((a0.prepareToPlay sampleRate).run bs).1 = a at h0
  intro hon
  obtain ⟨hn, hi, hp, -, -⟩ := configure_fields a b
  have hidx : 0 ≤ (if !a.isPlaying then 0 else a.noteIndex) := by split_ifs <;> omega
  unfold callback at hon ⊢
  by_cases hf : (a.configure b).fires b.numSamples
  · by_cases he : updateNotes (a.configure b).notes b.midiMessages = []
    · exfalso
      apply hon
      rw [(processBlock_fire_empty _ _ _ hf he).2.2]
      split_ifs <;> simp [noteOnNumbers, MidiMessage.isNoteOn]
    · rw [(processBlock_fire _ _ _ hf he).1, processBlock_notes, hi, hp]
      have hs := (size_pos_iff _).2 he
      rw [Int.tmod_eq_emod (by omega) (by omega)]
      exact Int.emod_lt_of_pos _ hs
  · exfalso
    apply hon
    rw [(processBlock_noFire _ _ b.midiMessages hf).1]
    rfl

theorem noteIndex_invariant_witness :
    noteOnNumbers (((chordArp.prepareToPlay 48000).run chordDown).1.callback
      (hostBlock (1/4) true 6000 [])).added = [64] ∧
    (((chordArp.prepareToPlay 48000).run chordDown).1.callback
      (hostBlock (1/4) true 6000 [])).arp.noteIndex
      < (((chordArp.prepareToPlay 48000).run chordDown).1.callback
      (hostBlock (1/4) true 6000 [])).arp.notes.size :=
  ⟨by decide!,
   (noteIndex_invariant chordArp 48000 chordDown (hostBlock (1/4) true 6000 [])).2.2
     (by decide!)⟩

/-- C4 (the code at the failing input): the host plays, reports a stop for one
callback and plays again; the arpeggiator records `isPlaying = true` for the
stopped callback, so the third callback does not reset the cursor and its
note-on is 67, not the lowest held note 60. -/
theorem restart_does_not_reset :
    noteOnNumbers (chordArp.run stopThenStart).2 = [60, 64, 67] ∧
    (chordArp.run (stopThenStart.take 2)).1.isPlaying = true ∧
    (chordArp.run (stopThenStart.take 2)).1.noteIndex = 2 := by
  decide!

/-- C5 (the code at the failing input): with a play head whose position reports
`isPlaying = false`, `getIsPlaying` returns `true`. -/
theorem getIsPlaying_stopped :
    (chordArp.setPlayHead (some ⟨some ⟨some 0, some 120, false⟩⟩)).getIsPlaying = true := by
  decide!

theorem addEvent_sublist (buf : MidiBuffer) (m : MidiMessage) (t : Int) :
    List.Sublist buf (MidiBuffer.addEvent buf m t) := by
  induction buf with
  | nil => exact List.nil_sublist _
  | cons e es ih =>
    unfold MidiBuffer.addEvent
    split_ifs
    · exact List.sublist_cons_self _ _
    · exact ih.cons₂ e

theorem addEvent_perm (buf : MidiBuffer) (m : MidiMessage) (t : Int) :
    List.Perm (MidiBuffer.addEvent buf m t) (buf ++ [⟨t, m⟩]) := by
  induction buf with
  | nil => exact List.Perm.refl _
  | cons e es ih =>
    unfold MidiBuffer.addEvent
    split_ifs
    · exact (List.perm_append_singleton _ _).symm
    · exact ih.cons e

theorem processBlock_fire_midi (a : Arpeggiator) (n : Int) (m : MidiBuffer) (h : a.fires n)
    (hne : updateNotes a.notes m ≠ []) :
    (a.processBlock n m).midiMessages
      = MidiBuffer.addEvent
          (if a.lastNote ≠ -1 then MidiBuffer.addEvent m (.noteOff 1 a.lastNote) (a.triggerOffset n)
           else m)
          (.noteOn 1 ((updateNotes a.notes m).get (if !a.isPlaying then 0 else a.noteIndex)) 127)
          (a.triggerOffset n) := by
  unfold fires at h
  have hs : (updateNotes a.notes m).size > 0 := (size_pos_iff _).2 hne
  unfold processBlock triggerOffset
  simp only [if_pos h, if_pos hs, getIsPlaying_true, Bool.and_true]
  split_ifs <;> simp

theorem processBlock_fire_empty_midi (a : Arpeggiator) (n : Int) (m : MidiBuffer)
    (h : a.fires n) (he : updateNotes a.notes m = []) :
    (a.processBlock n m).midiMessages
      = (if a.lastNote ≠ -1 then MidiBuffer.addEvent m (.noteOff 1 a.lastNote) (a.triggerOffset n)
         else m) := by
  unfold fires at h
  have hs : ¬ (updateNotes a.notes m).size > 0 := by rw [size_pos_iff]; simp [he]
  unfold processBlock triggerOffset
  simp only [if_pos h, if_neg hs, getIsPlaying_true, Bool.and_true]
  split_ifs <;> simp

/-- C6 (counterexample): a raw note-on that comes in on channel 2 is still in the
MIDI buffer after `processBlock`, and it is not one of the generated events. -/
theorem raw_event_kept :
    rawNoteOn ∈ (chordArp.callback (hostBlock 0 true 6000 [rawNoteOn])).midiMessages ∧
    rawNoteOn ∉ (chordArp.callback (hostBlock 0 true 6000 [rawNoteOn])).added := by
  decide!

/-- C6 (amended): the MIDI buffer left by `processBlock` holds every raw
incoming event, in the incoming order, together with the events generated by
the arpeggiator: the incoming buffer is a sublist of it and it is a
rearrangement of the incoming events followed by the generated ones. -/
theorem processBlock_keeps_raw_events (a : Arpeggiator) (numSamples : Int)
    (midiMessages : MidiBuffer) :
    List.Sublist midiMessages (a.processBlock numSamples midiMessages).midiMessages ∧
    List.Perm (a.processBlock numSamples midiMessages).midiMessages
      (midiMessages ++ (a.processBlock numSamples midiMessages).added) := by
  by_cases hf : a.fires numSamples
  · by_cases he : updateNotes a.notes midiMessages = []
    · rw [(processBlock_fire_empty a numSamples midiMessages hf he).2.2,
        processBlock_fire_empty_midi a numSamples midiMessages hf he]
      split_ifs
      · exact ⟨addEvent_sublist _ _ _, addEvent_perm _ _ _⟩
      · exact ⟨List.Sublist.refl _, by simp⟩
    · rw [(processBlock_fire a numSamples midiMessages hf he).2.2,
        processBlock_fire_midi a numSamples midiMessages hf he]
      generalize (if !a.isPlaying then 0 else a.noteIndex) = idx
      split_ifs
      · refine ⟨(addEvent_sublist _ _ _).trans (addEvent_sublist _ _ _), ?_⟩
        refine (addEvent_perm _ _ _).trans ?_
        rw [← List.append_assoc]
        exact (addEvent_perm _ _ _).append_right _
      · exact ⟨addEvent_sublist _ _ _, by simpa using addEvent_perm _ _ _⟩
  · obtain ⟨h1, h2, -, -⟩ := processBlock_noFire a numSamples midiMessages hf
    rw [h1, h2]
    exact ⟨List.Sublist.refl _, by simp⟩

/-! ## Theorems: the phase accumulator -/

/-- C8 (counterexample): with a frequency of half the sample rate and the phase
at 1/2 one call of `process` leaves the phase at 1, which is not below 1; with
a frequency of three times the sample rate the phase leaves the unit interval
(2 after one call, 4 after two calls started from phase 0). -/
theorem phase_reaches_one :
    (0 < halfRatePhasor.frequency ∧ 0 < halfRatePhasor.sampleRate ∧
      0 ≤ halfRatePhasor.phase ∧ halfRatePhasor.phase < 1 ∧
      (Phasor.processN Phasor.output 1 halfRatePhasor).phase = 1 ∧
      ¬ (Phasor.processN Phasor.output 1 halfRatePhasor).phase < 1) ∧
    (0 < tripleRatePhasor.frequency ∧ 0 < tripleRatePhasor.sampleRate ∧
      0 ≤ tripleRatePhasor.phase ∧ tripleRatePhasor.phase < 1 ∧
      (Phasor.processN Phasor.output 1 tripleRatePhasor).phase = 2 ∧
      (Phasor.processN Phasor.output 2 tripleRatePhasor).phase = 4) := by
  decide!

theorem process_phaseDelta (output : ℚ → ℚ) (ph : Phasor) :
    (Phasor.process output ph).1.phaseDelta = ph.phaseDelta := rfl

theorem process_phase_bounds (output : ℚ → ℚ) (ph : Phasor)
    (hd0 : 0 ≤ ph.phaseDelta) (hd1 : ph.phaseDelta ≤ 1) (h0 : 0 ≤ ph.phase) (h1 : ph.phase ≤ 1) :
    0 ≤ (Phasor.process output ph).1.phase ∧ (Phasor.process output ph).1.phase ≤ 1 := by
  unfold Phasor.process
  simp only []
  split_ifs with h
  · constructor <;> linarith
  · constructor
    · linarith
    · exact not_lt.1 h

theorem processN_phase_bounds (output : ℚ → ℚ) :
    ∀ (n : Nat) (ph : Phasor), 0 ≤ ph.phaseDelta → ph.phaseDelta ≤ 1 → 0 ≤ ph.phase →
      ph.phase ≤ 1 →
      0 ≤ (Phasor.processN output n ph).phase ∧ (Phasor.processN output n ph).phase ≤ 1
  | 0, _, _, _, h0, h1 => ⟨h0, h1⟩
  | n + 1, ph, hd0, hd1, h0, h1 => by
    obtain ⟨h2, h3⟩ := process_phase_bounds output ph hd0 hd1 h0 h1
    exact processN_phase_bounds output n (Phasor.process output ph).1
      (by rw [process_phaseDelta]; exact hd0) (by rw [process_phaseDelta]; exact hd1) h2 h3

/-- C8 (amended): for a sample rate above 0, a frequency `f` with `0 < f` and
`f` at most the sample rate, and a starting phase in `[0,1)`, after any number
of calls of `process` the stored phase satisfies `0 ≤ phase ≤ 1`. -/
theorem phase_stays_in_closed_unit_interval (output : ℚ → ℚ) (ph : Phasor) (f : ℚ) (n : Nat)
    (hf : 0 < f) (hsr : 0 < ph.sampleRate) (hle : f ≤ ph.sampleRate)
    (h0 : 0 ≤ ph.phase) (h1 : ph.phase < 1) :
    0 ≤ (Phasor.processN output n (ph.setFrequency f)).phase ∧
    (Phasor.processN output n (ph.setFrequency f)).phase ≤ 1 := by
  apply processN_phase_bounds
  · exact div_nonneg hf.le hsr.le
  · exact (div_le_one hsr).2 hle
  · exact h0
  · exact h1.le

theorem phase_stays_in_closed_unit_interval_witness :
    0 ≤ (Phasor.processN Phasor.output 5
          (({ frequency := 0, sampleRate := 48000, phase := 1/2, phaseDelta := 0,
              baseFrequency := 0 } : Phasor).setFrequency 440)).phase ∧
    (Phasor.processN Phasor.output 5
          (({ frequency := 0, sampleRate := 48000, phase := 1/2, phaseDelta := 0,
              baseFrequency := 0 } : Phasor).setFrequency 440)).phase ≤ 1 :=
  phase_stays_in_closed_unit_interval Phasor.output
    { frequency := 0, sampleRate := 48000, phase := 1/2, phaseDelta := 0, baseFrequency := 0 }
    440 5 (by norm_num) (by norm_num) (by norm_num) (by norm_num) (by norm_num)

/-! ## Theorems: the bit-crusher -/

/-- C19: for every phase `p` and duty width `w` the output of `SquareOsc` is
`+0.5` when `p ≤ w` and `-0.5` when `p > w`; a freshly constructed `SquareOsc`,
whose pulse width was never set, has `w = 0.5`, also after the inherited
setters and `process`. -/
theorem squareOsc_shape (sq : SquareOsc) (p : ℚ)
    (frequency sampleRate phaseDelta baseFrequency : ℚ) (SR freq phase : ℚ) :
    sq.output p = (if p ≤ sq.pulseWidth then 0.5 else -0.5) ∧
    (SquareOsc.construct frequency sampleRate phaseDelta baseFrequency).pulseWidth = 0.5 ∧
    ((((SquareOsc.construct frequency sampleRate phaseDelta baseFrequency).setSampleRate
        SR).setFrequency freq).setPhase phase).process.1.pulseWidth = 0.5 ∧
    (SquareOsc.construct frequency sampleRate phaseDelta baseFrequency).output p
      = (if p ≤ 0.5 then 0.5 else -0.5) := by
  have hshape : ∀ s : SquareOsc, s.output p = (if p ≤ s.pulseWidth then 0.5 else -0.5) := by
    intro s
    unfold SquareOsc.output
    simp only []
    split_ifs with h1 h2 h2
    · exact absurd h1 (not_lt.2 h2)
    · rfl
    · rfl
    · exact absurd (not_lt.1 h1) h2
  exact ⟨hshape sq, rfl, rfl, hshape _⟩

/-- C17: `startNote` computes `440 * 2^((n - 69)/12) * 2^(k/12)` for the note
number `n` and the pitch offset `k` (the power being the one of the library).
In mode 0 it sets the frequency of the bass oscillator to this value and leaves
both pulse oscillators as they are (frequency and pulse width included); in
every other mode it sets the frequency of both pulse oscillators to this value
and leaves the bass oscillator as it is. -/
theorem startNote_pitch {L : Library} (P : VoiceParameters) (v : BitCrusherVoice L)
    (midiNoteNumber : Int) (velocity : ℚ) :
    (P.modeParam = 0 →
      (v.startNote P midiNoteNumber velocity).bass.frequency
          = 440 * L.powf 2 (((midiNoteNumber : ℚ) - 69) / 12) * L.powf 2 (P.pitchOffset / 12) ∧
      (v.startNote P midiNoteNumber velocity).pulse1 = v.pulse1 ∧
      (v.startNote P midiNoteNumber velocity).pulse2 = v.pulse2) ∧
    (P.modeParam ≠ 0 →
      (v.startNote P midiNoteNumber velocity).pulse1.frequency
          = 440 * L.powf 2 (((midiNoteNumber : ℚ) - 69) / 12) * L.powf 2 (P.pitchOffset / 12) ∧
      (v.startNote P midiNoteNumber velocity).pulse2.frequency
          = 440 * L.powf 2 (((midiNoteNumber : ℚ) - 69) / 12) * L.powf 2 (P.pitchOffset / 12) ∧
      (v.startNote P midiNoteNumber velocity).bass = v.bass) := by
  constructor
  · intro h
    refine ⟨?_, ?_, ?_⟩ <;>
      simp [BitCrusherVoice.startNote, h, getMidiNoteInHertz, Phasor.setFrequency]
  · intro h
    refine ⟨?_, ?_, ?_⟩ <;>
      simp [BitCrusherVoice.startNote, h, getMidiNoteInHertz, Phasor.setFrequency,
        SquareOsc.setFrequency, SquareOsc.setPulseWidth]

theorem startNote_pitch_witness :
    ((scriptedVoice [] 0).startNote (voiceParams 0 1) 69 1).bass.frequency = 440 ∧
    ((scriptedVoice [] 0).startNote (voiceParams 1 1) 81 1).pulse1.frequency = 880 ∧
    ((scriptedVoice [] 0).startNote (voiceParams 1 1) 81 1).pulse2.frequency = 880 :=
  ⟨by
    rw [((startNote_pitch (voiceParams 0 1) (scriptedVoice [] 0) 69 1).1 (by decide!)).1]
    decide!, by decide!, by decide!⟩

theorem lfoStep_fields {L : Library} (P : VoiceParameters) (v : BitCrusherVoice L) :
    (BitCrusherVoice.lfoStep P v).1.playing = v.playing ∧
    (BitCrusherVoice.lfoStep P v).1.currentMidi = v.currentMidi ∧
    (BitCrusherVoice.lfoStep P v).1.env = v.env ∧
    (BitCrusherVoice.lfoStep P v).1.pulse1 = v.pulse1 ∧
    (BitCrusherVoice.lfoStep P v).1.pulse2 = v.pulse2 ∧
    (BitCrusherVoice.lfoStep P v).1.bass = v.bass ∧
    (BitCrusherVoice.lfoStep P v).1.lastEnvSample = v.lastEnvSample ∧
    (BitCrusherVoice.lfoStep P v).1.currentlyPlayingNote = v.currentlyPlayingNote := by
  unfold BitCrusherVoice.lfoStep
  split_ifs <;> exact ⟨rfl, rfl, rfl, rfl, rfl, rfl, rfl, rfl⟩

/-- In mode 2 with a note other than 60, 62 and 64 a pass of the sample loop
ends at `continue`: the buffer is the one given, and the voice keeps its note
and its playing flag. -/
theorem renderSample_unsupported {L : Library} (P : VoiceParameters) (v : BitCrusherVoice L)
    (buf : AudioSampleBuffer) (i : Int) (hmode : P.modeParam = 2)
    (h60 : v.currentMidi ≠ 60) (h62 : v.currentMidi ≠ 62) (h64 : v.currentMidi ≠ 64) :
    ∃ v1 : BitCrusherVoice L, v.renderSample P buf i = some (v1, buf) ∧
      v1.currentMidi = v.currentMidi ∧ v1.playing = v.playing := by
  have hsrc : ∀ (w : BitCrusherVoice L) (e : ℚ) (a : Bool), w.currentMidi = v.currentMidi →
      BitCrusherVoice.sourceSample P w e a = none := by
    intro w e a hw
    unfold BitCrusherVoice.sourceSample
    rw [if_pos hmode, if_neg (by rw [hw]; exact h60), if_neg (by rw [hw]; exact h62),
      if_neg (by rw [hw]; exact h64)]
  obtain ⟨hp, hm, -⟩ := lfoStep_fields P
    { v with env := (L.getNextSample v.env).1, lastEnvSample := (L.getNextSample v.env).2 }
  unfold BitCrusherVoice.renderSample
  simp only []
  rw [hsrc _ _ _ hm]
  exact ⟨_, rfl, hm, hp⟩

theorem renderLoop_unsupported {L : Library} (P : VoiceParameters) (buf : AudioSampleBuffer)
    (hmode : P.modeParam = 2) :
    ∀ (n : Nat) (i : Int) (v : BitCrusherVoice L), v.currentMidi ≠ 60 → v.currentMidi ≠ 62 →
      v.currentMidi ≠ 64 →
      ∃ v1 : BitCrusherVoice L, BitCrusherVoice.renderLoop P n i v buf = some (v1, buf) ∧
        v1.playing = v.playing
  | 0, _, v, _, _, _ => ⟨v, rfl, rfl⟩
  | n + 1, i, v, h60, h62, h64 => by
    obtain ⟨v1, h1, hm, hp⟩ := renderSample_unsupported P v buf i hmode h60 h62 h64
    obtain ⟨v2, h2, hp2⟩ := renderLoop_unsupported P buf hmode n (i + 1) v1 (by rw [hm]; exact h60)
      (by rw [hm]; exact h62) (by rw [hm]; exact h64)
    refine ⟨v2, ?_, by rw [hp2, hp]⟩
    unfold BitCrusherVoice.renderLoop
    rw [h1]
    exact h2

/-- C15: in percussive-noise mode (mode 2), for every assigned note other than
60, 62 and 64, every divisor (zero included) and every buffer content,
`renderNextBlock` returns and leaves the output buffer as it was. -/
theorem unsupported_note_is_silent {L : Library} (P : VoiceParameters) (v : BitCrusherVoice L)
    (outputBuffer : AudioSampleBuffer) (startSample numSamples : Int) (hmode : P.modeParam = 2)
    (h60 : v.currentMidi ≠ 60) (h62 : v.currentMidi ≠ 62) (h64 : v.currentMidi ≠ 64) :
    ∃ v1 : BitCrusherVoice L,
      v.renderNextBlock P outputBuffer startSample numSamples = some (v1, outputBuffer) := by
  unfold BitCrusherVoice.renderNextBlock
  split_ifs
  · obtain ⟨v1, h1, -⟩ := renderLoop_unsupported P outputBuffer hmode numSamples.toNat
      startSample v h60 h62 h64
    exact ⟨v1, h1⟩
  · exact ⟨v, rfl⟩

theorem unsupported_note_is_silent_witness :
    ∃ v1 : BitCrusherVoice scriptedLibrary,
      (scriptedVoice [1, 1/2] 61).renderNextBlock (voiceParams 2 0) mixedBuffer 0 4
        = some (v1, mixedBuffer) :=
  unsupported_note_is_silent (voiceParams 2 0) (scriptedVoice [1, 1/2] 61) mixedBuffer 0 4
    (by decide!) (by decide!) (by decide!) (by decide!)

/-- C13 (the code at the failing input): in mode 2 with the assigned note 61
the main envelope is inactive after the first sample of the call, every pass
ends at `continue` before the idle transition, and the voice is still playing
with its note when the call returns. With the note 64, or in mode 0, the same
call ends with the voice not playing and its note released. -/
theorem unsupported_note_never_idles :
    ((scriptedVoice [1/2] 61).renderNextBlock (voiceParams 2 1) clearedBuffer 0 4).map
        (fun r => (r.1.playing, scriptedLibrary.isActive r.1.env, r.1.currentlyPlayingNote))
      = some (true, false, 61) ∧
    ((scriptedVoice [1/2] 64).renderNextBlock (voiceParams 2 1) clearedBuffer 0 4).map
        (fun r => (r.1.playing, scriptedLibrary.isActive r.1.env, r.1.currentlyPlayingNote))
      = some (false, false, -1) ∧
    ((scriptedVoice [1/2] 61).renderNextBlock (voiceParams 0 1) clearedBuffer 0 4).map
        (fun r => (r.1.playing, scriptedLibrary.isActive r.1.env, r.1.currentlyPlayingNote))
      = some (false, false, -1) := by
  decide!

theorem renderNextBlock_not_playing {L : Library} (P : VoiceParameters) (v : BitCrusherVoice L)
    (buf : AudioSampleBuffer) (s n : Int) (h : v.playing = false) :
    v.renderNextBlock P buf s n = some (v, buf) := by
  unfold BitCrusherVoice.renderNextBlock
  simp [h]

theorem renderBlocks_not_playing {L : Library} (buf : AudioSampleBuffer) :
    ∀ (calls : List (VoiceParameters × Int × Int)) (v : BitCrusherVoice L), v.playing = false →
      BitCrusherVoice.renderBlocks calls v buf = some (v, buf)
  | [], _, _ => rfl
  | (P, s, n) :: calls, v, h => by
    unfold BitCrusherVoice.renderBlocks
    rw [renderNextBlock_not_playing P v buf s n h]
    exact renderBlocks_not_playing buf calls v h

/-- C14: after `stopNote` without tail-off every `renderNextBlock` call, for
every buffer, render window and parameter values, returns and leaves the
buffer and the voice as they were, and so does every sequence of such calls;
`stopNote` with tail-off leaves the playing flag as it was. -/
theorem hard_cut {L : Library} (v : BitCrusherVoice L) (velocity : ℚ) (P : VoiceParameters)
    (outputBuffer : AudioSampleBuffer) (startSample numSamples : Int)
    (calls : List (VoiceParameters × Int × Int)) :
    (v.stopNote velocity false).renderNextBlock P outputBuffer startSample numSamples
      = some (v.stopNote velocity false, outputBuffer) ∧
    BitCrusherVoice.renderBlocks calls (v.stopNote velocity false) outputBuffer
      = some (v.stopNote velocity false, outputBuffer) ∧
    (v.stopNote velocity true).playing = v.playing := by
  have h : (v.stopNote velocity false).playing = false := rfl
  exact ⟨renderNextBlock_not_playing P _ _ _ _ h, renderBlocks_not_playing _ calls _ h, rfl⟩

theorem addSampleToChannels_numChannels (i : Int) (x : ℚ) :
    ∀ (n : Nat) (b : AudioSampleBuffer),
      (AudioSampleBuffer.addSampleToChannels i x n b).numChannels = b.numChannels
  | 0, _ => rfl
  | n + 1, b => by
    unfold AudioSampleBuffer.addSampleToChannels AudioSampleBuffer.addSample
    exact addSampleToChannels_numChannels i x n b

theorem addSampleToChannels_data (i : Int) (x : ℚ) :
    ∀ (n : Nat) (b : AudioSampleBuffer) (c : Nat) (k : Int),
      (AudioSampleBuffer.addSampleToChannels i x n b).data c k
        = if c < n ∧ k = i then b.data c k + x else b.data c k
  | 0, b, c, k => by simp [AudioSampleBuffer.addSampleToChannels]
  | n + 1, b, c, k => by
    unfold AudioSampleBuffer.addSampleToChannels AudioSampleBuffer.addSample
    simp only []
    rw [addSampleToChannels_data i x n b c k]
    by_cases hk : k = i
    · by_cases hc : c = n
      · subst hc
        simp [hk]
      · by_cases hlt : c < n
        · have : c < n + 1 := by omega
          simp [hk, hc, hlt, this]
        · have : ¬ c < n + 1 := by omega
          simp [hk, hc, hlt, this]
    · simp [hk]

/-- A pass of the sample loop outside mode 2 with a divisor other than 0: the
value of some `outputSample` is added to every channel at the index of the
pass, and on an index that is not a multiple of the divisor that value is the
content of channel 0 at the last multiple. -/
theorem renderSample_tonal {L : Library} (P : VoiceParameters) (v : BitCrusherVoice L)
    (buf : AudioSampleBuffer) (i : Int) (hmode : P.modeParam ≠ 2)
    (hd : truncToInt P.rateDivide ≠ 0) :
    ∃ (v1 : BitCrusherVoice L) (x : ℚ),
      v.renderSample P buf i = some (v1,
        AudioSampleBuffer.addSampleToChannels i
          (if i.tmod (truncToInt P.rateDivide) ≠ 0
            then buf.data 0 (i - i.tmod (truncToInt P.rateDivide)) else x)
          buf.numChannels buf) := by
  have hsrc : ∀ (w : BitCrusherVoice L) (e : ℚ) (a : Bool),
      ∃ r, BitCrusherVoice.sourceSample P w e a = some r := by
    intro w e a
    unfold BitCrusherVoice.sourceSample
    rw [if_neg hmode]
    simp only []
    split_ifs <;> exact ⟨_, rfl⟩
  unfold BitCrusherVoice.renderSample
  simp only []
  obtain ⟨⟨v2, o⟩, hr⟩ := hsrc
    (BitCrusherVoice.lfoStep P
      { v with env := (L.getNextSample v.env).1, lastEnvSample := (L.getNextSample v.env).2 }).1
    (L.getNextSample v.env).2 (decide ((L.getNextSample v.env).2 > v.lastEnvSample))
  rw [hr]
  simp only [if_neg hd]
  exact ⟨_, _, rfl⟩

/-- The sample loop outside mode 2 with a divisor `d ≥ 1`, from an index
`i ≥ 0`: it returns; outside the window and the channels of the buffer nothing
changes; every channel receives the same amount at an index of the window; and
at an index `k` that is not a multiple of `d` that amount is the final content
of channel 0 at `k - k mod d`. -/
theorem renderLoop_tonal {L : Library} (P : VoiceParameters) (hmode : P.modeParam ≠ 2)
    (d : Int) (hd : truncToInt P.rateDivide = d) (hd1 : 1 ≤ d) :
    ∀ (n : Nat) (i : Int) (v : BitCrusherVoice L) (buf : AudioSampleBuffer), 0 ≤ i →
      ∃ (v1 : BitCrusherVoice L) (out : AudioSampleBuffer),
        BitCrusherVoice.renderLoop P n i v buf = some (v1, out) ∧
        out.numChannels = buf.numChannels ∧
        (∀ (c : Nat) (k : Int), (k < i ∨ i + n ≤ k ∨ buf.numChannels ≤ c) →
          out.data c k = buf.data c k) ∧
        (∀ (c : Nat) (k : Int), c < buf.numChannels → i ≤ k → k < i + n → k.tmod d ≠ 0 →
          out.data c k = buf.data c k + out.data 0 (k - k.tmod d)) ∧
        (∀ (c : Nat) (k : Int), c < buf.numChannels → i ≤ k → k < i + n →
          out.data c k - buf.data c k = out.data 0 k - buf.data 0 k) := by
  intro n
  induction n with
  | zero =>
    intro i v buf _
    refine ⟨v, buf, rfl, rfl, fun _ _ _ => rfl, ?_, ?_⟩
    · intro c k _ h1 h2; simp at h2; omega
    · intro c k _ h1 h2; simp at h2; omega
  | succ n ih =>
    intro i v buf hi
    have hdne : truncToInt P.rateDivide ≠ 0 := by rw [hd]; omega
    obtain ⟨v1, x, h1⟩ := renderSample_tonal P v buf i hmode hdne
    rw [hd] at h1
    obtain ⟨v2, out, h2, hnum, hframe, hdec, hunif⟩ := ih (i + 1) v1
      (AudioSampleBuffer.addSampleToChannels i
        (if i.tmod d ≠ 0 then buf.data 0 (i - i.tmod d) else x) buf.numChannels buf) (by omega)
    rw [addSampleToChannels_numChannels] at hnum hframe hdec hunif
    simp only [addSampleToChannels_data] at hframe hdec hunif
    refine ⟨v2, out, ?_, hnum, ?_, ?_, ?_⟩
    · unfold BitCrusherVoice.renderLoop
      rw [h1]
      exact h2
    · intro c k hk
      have h3 := hframe c k (by push_cast at hk ⊢; omega)
      rw [h3, if_neg]
      rintro ⟨hc, hki⟩
      push_cast at hk
      omega
    · intro c k hc hk1 hk2 hmod
      push_cast at hk2
      by_cases hki : k = i
      · subst hki
        have h3 := hframe c k (Or.inl (by omega))
        rw [if_pos ⟨hc, rfl⟩, if_pos hmod] at h3
        have hpos : 0 < k.tmod d := lt_of_le_of_ne (Int.tmod_nonneg d hi) (Ne.symm hmod)
        have h4 := hframe 0 (k - k.tmod d) (Or.inl (by omega))
        rw [if_neg (by rintro ⟨-, h⟩; omega)] at h4
        rw [h3, h4]
      · have h3 := hdec c k hc (by omega) (by omega) hmod
        rw [if_neg (by rintro ⟨-, h⟩; exact hki h)] at h3
        exact h3
    · intro c k hc hk1 hk2
      push_cast at hk2
      have hc0 : 0 < buf.numChannels := by omega
      by_cases hki : k = i
      · subst hki
        have h3 := hframe c k (Or.inl (by omega))
        have h4 := hframe 0 k (Or.inl (by omega))
        rw [if_pos ⟨hc, rfl⟩] at h3
        rw [if_pos ⟨hc0, rfl⟩] at h4
        rw [h3, h4]
        ring
      · have h3 := hunif c k hc (by omega) (by omega)
        rw [if_neg (by rintro ⟨-, h⟩; exact hki h), if_neg (by rintro ⟨-, h⟩; exact hki h)] at h3
        exact h3

/-- In a pre-cleared buffer rendered from index 0 with a divisor `d ≥ 1` by a
tonal-mode voice, every sample of a channel equals the sample of channel 0 at
the last multiple of `d`. -/
theorem cleared_block_is_held {L : Library} (P : VoiceParameters) (v : BitCrusherVoice L)
    (outputBuffer : AudioSampleBuffer) (blockSize d : Nat)
    (hmode : P.modeParam = 0 ∨ P.modeParam = 1)
    (hd : truncToInt P.rateDivide = (d : Int)) (hd1 : 1 ≤ d)
    (hclear : ∀ (c : Nat) (k : Int), outputBuffer.data c k = 0) :
    ∃ (v1 : BitCrusherVoice L) (out : AudioSampleBuffer),
      v.renderNextBlock P outputBuffer 0 (blockSize : Int) = some (v1, out) ∧
      ∀ (c k : Nat), c < outputBuffer.numChannels → k < blockSize →
        out.data c (k : Int) = out.data 0 ((d * (k / d) : Nat) : Int) := by
  have hm : P.modeParam ≠ 2 := by rcases hmode with h | h <;> rw [h] <;> norm_num
  by_cases hplay : v.playing = true
  · obtain ⟨v1, out, h1, -, -, hdec, hunif⟩ := renderLoop_tonal P hm (d : Int) hd (by omega)
      (blockSize : Int).toNat 0 v outputBuffer le_rfl
    refine ⟨v1, out, ?_, ?_⟩
    · unfold BitCrusherVoice.renderNextBlock
      rw [if_pos hplay]
      exact h1
    · intro c k hc hk
      have hkk : ((d * (k / d) : Nat) : Int) = (k : Int) - (k : Int).tmod (d : Int) := by
        rw [← Int.ofNat_tmod]
        have := Nat.div_add_mod k d
        omega
      rw [hkk]
      by_cases hmod : (k : Int).tmod (d : Int) = 0
      · rw [hmod, sub_zero]
        have h3 := hunif c (k : Int) hc (by omega) (by simp; omega)
        rw [hclear, hclear] at h3
        linarith
      · have h3 := hdec c (k : Int) hc (by omega) (by simp; omega) hmod
        rw [hclear] at h3
        rw [h3, zero_add]
  · refine ⟨v, outputBuffer, ?_, ?_⟩
    · unfold BitCrusherVoice.renderNextBlock
      rw [if_neg hplay]
    · intro c k _ _
      rw [hclear, hclear]

/-- C12: a single tonal-mode voice renders a block of `blockSize` samples from
index 0 into a pre-cleared buffer with a divisor `d ≥ 1`; then the call
returns, and in every channel every run of `d` consecutive samples inside the
block holds at most `⌈blockSize / d⌉` distinct values. -/
theorem decimation_bound {L : Library} (P : VoiceParameters) (v : BitCrusherVoice L)
    (outputBuffer : AudioSampleBuffer) (blockSize d : Nat)
    (hmode : P.modeParam = 0 ∨ P.modeParam = 1)
    (hd : truncToInt P.rateDivide = (d : Int)) (hd1 : 1 ≤ d)
    (hclear : ∀ (c : Nat) (k : Int), outputBuffer.data c k = 0) :
    ∃ (v1 : BitCrusherVoice L) (out : AudioSampleBuffer),
      v.renderNextBlock P outputBuffer 0 (blockSize : Int) = some (v1, out) ∧
      ∀ (c s : Nat), c < outputBuffer.numChannels → s + d ≤ blockSize →
        ((Finset.range d).image (fun t => out.data c ((s + t : Nat) : Int))).card
          ≤ (blockSize + d - 1) / d := by
  obtain ⟨v1, out, h1, hheld⟩ := cleared_block_is_held P v outputBuffer blockSize d hmode hd
    hd1 hclear
  refine ⟨v1, out, h1, ?_⟩
  intro c s hc hs
  have hsub : (Finset.range d).image (fun t => out.data c ((s + t : Nat) : Int))
      ⊆ (Finset.range ((blockSize + d - 1) / d)).image
          (fun m => out.data 0 ((d * m : Nat) : Int)) := by
    intro x hx
    rw [Finset.mem_image] at hx ⊢
    obtain ⟨t, ht, rfl⟩ := hx
    rw [Finset.mem_range] at ht
    refine ⟨(s + t) / d, ?_, (hheld c (s + t) hc (by omega)).symm⟩
    rw [Finset.mem_range, Nat.div_lt_iff_lt_mul (by omega)]
    have h2 := Nat.lt_mul_div_succ (blockSize + d - 1) (by omega : 0 < d)
    have h3 : d * ((blockSize + d - 1) / d + 1) = (blockSize + d - 1) / d * d + d := by ring
    rw [h3] at h2
    omega
  calc ((Finset.range d).image (fun t => out.data c ((s + t : Nat) : Int))).card
      ≤ ((Finset.range ((blockSize + d - 1) / d)).image
          (fun m => out.data 0 ((d * m : Nat) : Int))).card := Finset.card_le_card hsub
    _ ≤ (Finset.range ((blockSize + d - 1) / d)).card := Finset.card_image_le
    _ = (blockSize + d - 1) / d := Finset.card_range _

theorem decimation_bound_witness :
    ((scriptedVoice [1, 1/2, 1/4, 1/8] 48).renderNextBlock (voiceParams 0 2) clearedBuffer 0
        4).map (fun r => [r.2.data 0 0, r.2.data 0 1, r.2.data 0 2, r.2.data 0 3])
      = some [4/15, 4/15, 1/15, 1/15] ∧
    ∃ (v1 : BitCrusherVoice scriptedLibrary) (out : AudioSampleBuffer),
      (scriptedVoice [1, 1/2, 1/4, 1/8] 48).renderNextBlock (voiceParams 0 2) clearedBuffer 0
        ((4 : Nat) : Int) = some (v1, out) ∧
      ∀ (c s : Nat), c < clearedBuffer.numChannels → s + 2 ≤ 4 →
        ((Finset.range 2).image (fun t => out.data c ((s + t : Nat) : Int))).card
          ≤ (4 + 2 - 1) / 2 :=
  ⟨by decide!,
   decimation_bound (voiceParams 0 2) (scriptedVoice [1, 1/2, 1/4, 1/8] 48) clearedBuffer 4 2
     (by decide!) (by decide!) (by decide) (fun _ _ => rfl)⟩

theorem truncToInt_neg (x : ℚ) : truncToInt (-x) = -truncToInt x := by
  unfold truncToInt
  rcases lt_trichotomy x 0 with h | h | h
  · rw [if_pos (by linarith), if_neg (by linarith), Int.floor_neg]
  · subst h
    simp
  · rw [if_neg (by linarith), if_pos (by linarith), Int.ceil_neg]

theorem renderSample_neg_divisor {L : Library} (P : VoiceParameters) (v : BitCrusherVoice L)
    (buf : AudioSampleBuffer) (i : Int) :
    v.renderSample { P with rateDivide := -P.rateDivide } buf i = v.renderSample P buf i := by
  unfold BitCrusherVoice.renderSample
  simp only [truncToInt_neg, Int.tmod_neg, neg_eq_zero]
  rfl

theorem renderLoop_neg_divisor {L : Library} (P : VoiceParameters) :
    ∀ (n : Nat) (i : Int) (v : BitCrusherVoice L) (buf : AudioSampleBuffer),
      BitCrusherVoice.renderLoop { P with rateDivide := -P.rateDivide } n i v buf
        = BitCrusherVoice.renderLoop P n i v buf
  | 0, _, _, _ => rfl
  | n + 1, i, v, buf => by
    unfold BitCrusherVoice.renderLoop
    rw [renderSample_neg_divisor]
    cases v.renderSample P buf i with
    | none => rfl
    | some r => exact renderLoop_neg_divisor P n (i + 1) r.1 r.2

theorem renderSample_defined {L : Library} (P : VoiceParameters) (v : BitCrusherVoice L)
    (buf : AudioSampleBuffer) (i : Int) (hd : truncToInt P.rateDivide ≠ 0) :
    ∃ r, v.renderSample P buf i = some r := by
  unfold BitCrusherVoice.renderSample
  simp only []
  split
  · exact ⟨_, rfl⟩
  · rw [if_neg hd]
    exact ⟨_, rfl⟩

theorem renderLoop_defined {L : Library} (P : VoiceParameters)
    (hd : truncToInt P.rateDivide ≠ 0) :
    ∀ (n : Nat) (i : Int) (v : BitCrusherVoice L) (buf : AudioSampleBuffer),
      (BitCrusherVoice.renderLoop P n i v buf).isSome = true
  | 0, _, _, _ => rfl
  | n + 1, i, v, buf => by
    obtain ⟨r, hr⟩ := renderSample_defined P v buf i hd
    unfold BitCrusherVoice.renderLoop
    rw [hr]
    exact renderLoop_defined P hd n (i + 1) r.1 r.2

/-- C18 (counterexample): with the divisor 0 a playing tonal voice has no
defined result (the first pass divides by zero), and with the divisor -2 the
output is the one of the divisor 2, not the one of the divisor 1. -/
theorem invalid_divisor_not_clamped :
    ((scriptedVoice [1, 1/4] 48).renderNextBlock (voiceParams 0 0) clearedBuffer 0 2).isSome
      = false ∧
    ((scriptedVoice [1, 1/4] 48).renderNextBlock (voiceParams 0 (-2)) clearedBuffer 0 2).map
        (fun r => [r.2.data 0 0, r.2.data 0 1]) = some [4/15, 4/15] ∧
    ((scriptedVoice [1, 1/4] 48).renderNextBlock (voiceParams 0 1) clearedBuffer 0 2).map
        (fun r => [r.2.data 0 0, r.2.data 0 1]) = some [4/15, 1/15] := by
  decide!

/-- C18 (amended): the divisor is not clamped. For every divisor other than 0
`renderNextBlock` returns, and a divisor `-d` gives the same result as the
divisor `d` (so `-1` gives the result of the divisor 1). -/
theorem nonzero_divisor_defined {L : Library} (P : VoiceParameters) (v : BitCrusherVoice L)
    (outputBuffer : AudioSampleBuffer) (startSample numSamples : Int) :
    (truncToInt P.rateDivide ≠ 0 →
      (v.renderNextBlock P outputBuffer startSample numSamples).isSome = true) ∧
    v.renderNextBlock { P with rateDivide := -P.rateDivide } outputBuffer startSample numSamples
      = v.renderNextBlock P outputBuffer startSample numSamples := by
  constructor
  · intro hd
    unfold BitCrusherVoice.renderNextBlock
    split_ifs
    · exact renderLoop_defined P hd _ _ _ _
    · rfl
  · unfold BitCrusherVoice.renderNextBlock
    rw [renderLoop_neg_divisor]

theorem nonzero_divisor_defined_witness :
    ((scriptedVoice [1, 1/4] 48).renderNextBlock (voiceParams 0 (-2)) clearedBuffer 0 2).isSome
      = true :=
  (nonzero_divisor_defined (voiceParams 0 (-2)) (scriptedVoice [1, 1/4] 48) clearedBuffer 0
    2).1 (by decide!)

/-- The mode part of a pass in mode 1: the sample is taken from pulse 1 when the
pulse-width choices are equal or the pass is in the attack phase, and from
pulse 2 otherwise; the other pulse oscillator is not advanced. -/
theorem sourceSample_pulse {L : Library} (P : VoiceParameters) (w : BitCrusherVoice L) (e : ℚ)
    (a : Bool) (hmode : P.modeParam = 1) :
    BitCrusherVoice.sourceSample P w e a
      = some (if P.pulseWidth1Choice = P.pulseWidth2Choice ∨ a = true
          then ({ w with pulse1 := w.pulse1.process.1 }, w.pulse1.process.2 * e)
          else ({ w with pulse2 := w.pulse2.process.1 }, w.pulse2.process.2 * e)) := by
  unfold BitCrusherVoice.sourceSample
  rw [if_neg (by rw [hmode]; norm_num), if_neg (by rw [hmode]; norm_num), if_pos hmode]
  by_cases heq : P.pulseWidth1Choice = P.pulseWidth2Choice
  · simp [heq]
  · cases a <;> simp [heq]

/-- One pass of the sample loop in mode 1: the voice remembers the envelope
level of the pass, and advances pulse 1 alone when the choices are equal or
the level is above the remembered one, and pulse 2 alone otherwise. -/
theorem renderSample_pulse {L : Library} (P : VoiceParameters) (v v1 : BitCrusherVoice L)
    (buf buf1 : AudioSampleBuffer) (i : Int) (hmode : P.modeParam = 1)
    (h : v.renderSample P buf i = some (v1, buf1)) :
    v1.lastEnvSample = (L.getNextSample v.env).2 ∧
    v1.env = (L.getNextSample v.env).1 ∧
    (P.pulseWidth1Choice = P.pulseWidth2Choice ∨ (L.getNextSample v.env).2 > v.lastEnvSample →
      v1.pulse1 = v.pulse1.process.1 ∧ v1.pulse2 = v.pulse2) ∧
    (¬ (P.pulseWidth1Choice = P.pulseWidth2Choice ∨
          (L.getNextSample v.env).2 > v.lastEnvSample) →
      v1.pulse2 = v.pulse2.process.1 ∧ v1.pulse1 = v.pulse1) := by
  obtain ⟨-, -, he, hp1, hp2, -, hl, -⟩ := lfoStep_fields P
    { v with env := (L.getNextSample v.env).1, lastEnvSample := (L.getNextSample v.env).2 }
  unfold BitCrusherVoice.renderSample at h
  simp only [sourceSample_pulse _ _ _ _ hmode, decide_eq_true_eq] at h
  by_cases hd : truncToInt P.rateDivide = 0
  · simp [hd] at h
  · simp only [if_neg hd, Option.some.injEq, Prod.mk.injEq] at h
    obtain ⟨hv, -⟩ := h
    subst hv
    by_cases hc : P.pulseWidth1Choice = P.pulseWidth2Choice ∨
        (L.getNextSample v.env).2 > v.lastEnvSample
    · simp only [if_pos hc]
      refine ⟨?_, ?_, fun _ => ⟨?_, ?_⟩, fun hn => absurd hc hn⟩ <;>
        split_ifs <;> simp [BitCrusherVoice.clearCurrentNote, he, hp1, hp2, hl]
    · simp only [if_neg hc]
      refine ⟨?_, ?_, fun hn => absurd hn hc, fun _ => ⟨?_, ?_⟩⟩ <;>
        split_ifs <;> simp [BitCrusherVoice.clearCurrentNote, he, hp1, hp2, hl]

/-- C16: in mode 1 two successive passes of the sample loop return (the divisor
not being 0). With unequal pulse-width choices the second pass advances pulse 1
alone, and takes its sample from it, exactly when the envelope level of that
pass is strictly above the level of the pass before, and advances pulse 2
alone, and takes its sample from it, otherwise; with equal choices it always
takes pulse 1. The sample taken is the output of that oscillator times the
envelope level. -/
theorem pulse_pair_switching {L : Library} (P : VoiceParameters) (v : BitCrusherVoice L)
    (buf : AudioSampleBuffer) (i : Int) (hmode : P.modeParam = 1)
    (hd : truncToInt P.rateDivide ≠ 0) :
    ∃ (v1 v2 : BitCrusherVoice L) (buf1 buf2 : AudioSampleBuffer),
      v.renderSample P buf i = some (v1, buf1) ∧
      v1.renderSample P buf1 (i + 1) = some (v2, buf2) ∧
      (P.pulseWidth1Choice ≠ P.pulseWidth2Choice →
        ((L.getNextSample v1.env).2 > (L.getNextSample v.env).2 →
          v2.pulse1 = v1.pulse1.process.1 ∧ v2.pulse2 = v1.pulse2) ∧
        (¬ (L.getNextSample v1.env).2 > (L.getNextSample v.env).2 →
          v2.pulse2 = v1.pulse2.process.1 ∧ v2.pulse1 = v1.pulse1)) ∧
      (P.pulseWidth1Choice = P.pulseWidth2Choice →
        v2.pulse1 = v1.pulse1.process.1 ∧ v2.pulse2 = v1.pulse2) ∧
      (∀ (w : BitCrusherVoice L) (e : ℚ) (a : Bool),
        BitCrusherVoice.sourceSample P w e a
          = some (if P.pulseWidth1Choice = P.pulseWidth2Choice ∨ a = true
              then ({ w with pulse1 := w.pulse1.process.1 }, w.pulse1.process.2 * e)
              else ({ w with pulse2 := w.pulse2.process.1 }, w.pulse2.process.2 * e))) := by
  obtain ⟨⟨v1, buf1⟩, h1⟩ := renderSample_defined P v buf i hd
  obtain ⟨⟨v2, buf2⟩, h2⟩ := renderSample_defined P v1 buf1 (i + 1) hd
  obtain ⟨hl, -, -, -⟩ := renderSample_pulse P v v1 buf buf1 i hmode h1
  obtain ⟨-, -, hp, hn⟩ := renderSample_pulse P v1 v2 buf1 buf2 (i + 1) hmode h2
  rw [hl] at hp hn
  refine ⟨v1, v2, buf1, buf2, h1, h2, ?_, ?_, fun w e a => sourceSample_pulse P w e a hmode⟩
  · intro hne
    exact ⟨fun hgt => hp (Or.inr hgt), fun hle => hn (by rintro (h | h); exact hne h; exact hle h)⟩
  · intro heq
    exact hp (Or.inl heq)

theorem pulse_pair_switching_witness :
    ((pulseVoice [1/2, 1, 1/2]).renderNextBlock (voiceParams 1 1) clearedBuffer 0 3).map
        (fun r => (r.1.pulse1.phase, r.1.pulse2.phase)) = some (1/2, 1/4) ∧
    ∃ (v1 v2 : BitCrusherVoice scriptedLibrary) (buf1 buf2 : AudioSampleBuffer),
      (pulseVoice [1/2, 1, 1/2]).renderSample (voiceParams 1 1) clearedBuffer 0
        = some (v1, buf1) ∧
      v1.renderSample (voiceParams 1 1) buf1 (0 + 1) = some (v2, buf2) ∧
      ((voiceParams 1 1).pulseWidth1Choice ≠ (voiceParams 1 1).pulseWidth2Choice →
        ((scriptedLibrary.getNextSample v1.env).2
            > (scriptedLibrary.getNextSample (pulseVoice [1/2, 1, 1/2]).env).2 →
          v2.pulse1 = v1.pulse1.process.1 ∧ v2.pulse2 = v1.pulse2) ∧
        (¬ (scriptedLibrary.getNextSample v1.env).2
            > (scriptedLibrary.getNextSample (pulseVoice [1/2, 1, 1/2]).env).2 →
          v2.pulse2 = v1.pulse2.process.1 ∧ v2.pulse1 = v1.pulse1)) ∧
      ((voiceParams 1 1).pulseWidth1Choice = (voiceParams 1 1).pulseWidth2Choice →
        v2.pulse1 = v1.pulse1.process.1 ∧ v2.pulse2 = v1.pulse2) ∧
      (∀ (w : BitCrusherVoice scriptedLibrary) (e : ℚ) (a : Bool),
        BitCrusherVoice.sourceSample (voiceParams 1 1) w e a
          = some (if (voiceParams 1 1).pulseWidth1Choice = (voiceParams 1 1).pulseWidth2Choice
                ∨ a = true
              then ({ w with pulse1 := w.pulse1.process.1 }, w.pulse1.process.2 * e)
              else ({ w with pulse2 := w.pulse2.process.1 }, w.pulse2.process.2 * e))) :=
  ⟨by decide!,
   pulse_pair_switching (voiceParams 1 1) (pulseVoice [1/2, 1, 1/2]) clearedBuffer 0
     (by decide!) (by decide!)⟩

/-! ## Theorems: triggers of the arpeggiator -/

theorem run_cons (a : Arpeggiator) (b : Block) (bs : List Block) :
    a.run (b :: bs)
      = (((a.callback b).arp.run bs).1, (a.callback b).added ++ ((a.callback b).arp.run bs).2) :=
  rfl

/-- In every state reached from `prepareToPlay` the cursor is 0 or a call of
`processBlock` has stored `isPlaying = true`. -/
theorem run_playing_or_zero : ∀ (bs : List Block) (a : Arpeggiator),
    (a.isPlaying = true ∨ a.noteIndex = 0) →
    ((a.run bs).1.isPlaying = true ∨ (a.run bs).1.noteIndex = 0)
  | [], _, h => h
  | b :: bs, a, _ => by
    rw [run_cons]
    exact run_playing_or_zero bs (a.callback b).arp (Or.inl (processBlock_isPlaying _ _ _))

/-- C23: in a state reached from `prepareToPlay`, when the trigger fires in a
callback whose held-note set (after the incoming events) is empty, no note-on is
emitted, the cursor `noteIndex` is unchanged, the events emitted are the
note-off of the previously triggered note if there is one and nothing
otherwise, and `lastNote` becomes `-1`. -/
theorem empty_set_trigger (a0 : Arpeggiator) (sampleRate : ℚ) (bs : List Block) (b : Block)
    (hfire : (((a0.prepareToPlay sampleRate).run bs).1.configure b).fires b.numSamples)
    (hempty : updateNotes ((a0.prepareToPlay sampleRate).run bs).1.notes b.midiMessages = []) :
    noteOnNumbers (((a0.prepareToPlay sampleRate).run bs).1.callback b).added = [] ∧
    (((a0.prepareToPlay sampleRate).run bs).1.callback b).arp.noteIndex
      = ((a0.prepareToPlay sampleRate).run bs).1.noteIndex ∧
    (((a0.prepareToPlay sampleRate).run bs).1.callback b).added
      = (if ((a0.prepareToPlay sampleRate).run bs).1.lastNote ≠ -1
          then [⟨(((a0.prepareToPlay sampleRate).run bs).1.configure b).triggerOffset b.numSamples,
                 .noteOff 1 ((a0.prepareToPlay sampleRate).run bs).1.lastNote⟩]
          else []) ∧
    (((a0.prepareToPlay sampleRate).run bs).1.callback b).arp.lastNote = -1 := by
  have hinv := run_playing_or_zero bs (a0.prepareToPlay sampleRate) (Or.inr rfl)
  generalize ((a0.prepareToPlay sampleRate).run bs).1 = a at *
  obtain ⟨hn, hi, hp, hl, -⟩ := configure_fields a b
  rw [← hn] at hempty
  obtain ⟨h1, h2, h3⟩ := processBlock_fire_empty (a.configure b) b.numSamples b.midiMessages
    hfire hempty
  unfold callback
  rw [h1, h2, h3, hi, hp, hl]
  refine ⟨?_, ?_, rfl, rfl⟩
  · split_ifs <;> simp [noteOnNumbers, MidiMessage.isNoteOn]
  · rcases hinv with h | h
    · simp [h]
    · simp [h]

theorem empty_set_trigger_witness :
    noteOnNumbers (((chordArp.prepareToPlay 48000).run allReleased).1.callback
      (hostBlock (1/2) true 6000 [])).added = [] ∧
    (((chordArp.prepareToPlay 48000).run allReleased).1.callback
      (hostBlock (1/2) true 6000 [])).arp.noteIndex
      = ((chordArp.prepareToPlay 48000).run allReleased).1.noteIndex ∧
    (((chordArp.prepareToPlay 48000).run allReleased).1.callback
      (hostBlock (1/2) true 6000 [])).added
      = (if ((chordArp.prepareToPlay 48000).run allReleased).1.lastNote ≠ -1
          then [⟨(((chordArp.prepareToPlay 48000).run allReleased).1.configure
                    (hostBlock (1/2) true 6000 [])).triggerOffset
                    (hostBlock (1/2) true 6000 []).numSamples,
                 .noteOff 1 ((chordArp.prepareToPlay 48000).run allReleased).1.lastNote⟩]
          else []) ∧
    (((chordArp.prepareToPlay 48000).run allReleased).1.callback
      (hostBlock (1/2) true 6000 [])).arp.lastNote = -1 :=
  empty_set_trigger chordArp 48000 allReleased (hostBlock (1/2) true 6000 []) (by decide!)
    (by decide!)

theorem skip_values (rate : Int) (h : 1 ≤ rate) :
    skip rate = 1 ∨ skip rate = 2 ∨ skip rate = 4 ∨ skip rate = 8 := by
  by_cases h9 : rate ≤ 8
  · interval_cases rate <;> decide
  · left
    unfold skip
    rw [positionCount_eq, Int.tdiv_eq_zero_of_lt (by norm_num) (by omega)]
    rfl

/-- The search loop with a step that divides 8, entered at a multiple of the
step, ends with a value that is not negative: at the latest the position 1 is
accepted. -/
theorem nextNoteLoop_nonneg (p qns : ℚ) (hq : 0 < qns) (s : Int)
    (hs : s = 1 ∨ s = 2 ∨ s = 4 ∨ s = 8) :
    ∀ (fuel : Nat) (i : Int) (acc : ℚ), 0 ≤ i → i ≤ 8 → i % s = 0 → 9 - i ≤ (fuel : Int) →
      0 ≤ nextNoteLoop p qns s fuel i acc := by
  intro fuel
  induction fuel with
  | zero => intro i acc h0 h8 _ hf; simp at hf; omega
  | succ f ih =>
    intro i acc h0 h8 hmod hf
    unfold nextNoteLoop
    rw [if_pos (by rw [positionCount_eq]; omega)]
    simp only []
    split_ifs with hge
    · exact hge
    · have hpos : positions.getD i.toNat 0 = (i : ℚ) / 8 := by
        rw [positions_getD _ (by omega)]
        congr 1
        rw [← Int.cast_natCast, Int.toNat_of_nonneg h0]
      rw [hpos] at hge
      have hlt : (i : ℚ) / 8 < Int.fract p := by
        by_contra hcon
        apply hge
        have hfrac : p - (⌊p⌋ : ℚ) = Int.fract p := rfl
        rw [hfrac]
        exact mul_nonneg (by linarith) hq.le
      have hi8 : i < 8 := by
        have h1 := Int.fract_lt_one p
        have : (i : ℚ) / 8 < 1 := lt_trans hlt h1
        rw [div_lt_one (by norm_num)] at this
        exact_mod_cast this
      push_cast at hf
      apply ih
      · rcases hs with h | h | h | h <;> subst h <;> omega
      · rcases hs with h | h | h | h <;> subst h <;> omega
      · rcases hs with h | h | h | h <;> subst h <;> omega
      · rcases hs with h | h | h | h <;> subst h <;> omega

theorem samplesToNextNote_nonneg (p bpm sr : ℚ) (rate n : Int) (hsr : 0 < sr) (hbpm : 0 < bpm)
    (hrate : 1 ≤ rate) : 0 ≤ Arpeggiator.samplesToNextNote p bpm sr rate n := by
  unfold Arpeggiator.samplesToNextNote
  apply nextNoteLoop_nonneg p _ (div_pos hsr (div_pos hbpm (by norm_num))) _
    (skip_values rate hrate)
  · exact le_rfl
  · norm_num
  · simp
  · simp [positions]

/-- C24: for a sample rate and a tempo above 0, a rate from 1 on, every
position (negative ones included) and every block size `n`, each note-on and
note-off that `processBlock` emits has a sample offset `t` with `0 ≤ t < n`. -/
theorem event_offsets_in_block (a : Arpeggiator) (numSamples : Int) (midiMessages : MidiBuffer)
    (hsr : 0 < a.sampleRate) (hbpm : 0 < a.getBPM) (hrate : 1 ≤ a.rate) :
    ∀ e ∈ (a.processBlock numSamples midiMessages).added,
      0 ≤ e.samplePosition ∧ e.samplePosition < numSamples := by
  intro e he
  by_cases hf : a.fires numSamples
  · have hnn := samplesToNextNote_nonneg a.getPositionInQuarterNotes a.getBPM a.sampleRate a.rate
      numSamples hsr hbpm hrate
    have ht : 0 ≤ a.triggerOffset numSamples ∧ a.triggerOffset numSamples < numSamples := by
      unfold triggerOffset truncToInt
      rw [if_pos hnn]
      exact ⟨Int.floor_nonneg.2 hnn, Int.floor_lt.2 hf⟩
    have hpos : e.samplePosition = a.triggerOffset numSamples := by
      by_cases hempty : updateNotes a.notes midiMessages = []
      · rw [(processBlock_fire_empty a numSamples midiMessages hf hempty).2.2] at he
        by_cases hl : a.lastNote ≠ -1
        · rw [if_pos hl] at he
          simp at he
          rw [he]
        · rw [if_neg hl] at he
          simp at he
      · rw [(processBlock_fire a numSamples midiMessages hf hempty).2.2] at he
        generalize (if !a.isPlaying then 0 else a.noteIndex) = idx at he
        by_cases hl : a.lastNote ≠ -1
        · rw [if_pos hl] at he
          simp at he
          rcases he with h | h <;> rw [h]
        · rw [if_neg hl] at he
          simp at he
          rw [he]
    rw [hpos]
    exact ht
  · rw [(processBlock_noFire a numSamples midiMessages hf).1] at he
    simp at he

theorem event_offsets_in_block_witness :
    (offGridArp.processBlock 6000 []).added = [⟨3600, .noteOn 1 60 127⟩] ∧
    ∀ e ∈ (offGridArp.processBlock 6000 []).added,
      0 ≤ e.samplePosition ∧ e.samplePosition < 6000 :=
  ⟨by decide!,
   event_offsets_in_block offGridArp 6000 [] (by decide!) (by decide!) (by decide!)⟩

/-- C27: a single call of `processBlock` emits at most one note-on and at most
one note-off, whatever the block size, tempo, rate and held-note set, also
when the block spans several selected trigger positions. -/
theorem one_trigger_per_block (a : Arpeggiator) (numSamples : Int) (midiMessages : MidiBuffer) :
    ((a.processBlock numSamples midiMessages).added.filter
        (fun e => e.message.isNoteOn)).length ≤ 1 ∧
    ((a.processBlock numSamples midiMessages).added.filter
        (fun e => e.message.isNoteOff)).length ≤ 1 := by
  by_cases hf : a.fires numSamples
  · by_cases hempty : updateNotes a.notes midiMessages = []
    · rw [(processBlock_fire_empty a numSamples midiMessages hf hempty).2.2]
      by_cases hl : a.lastNote ≠ -1
      · rw [if_pos hl]
        simp [MidiMessage.isNoteOn, MidiMessage.isNoteOff]
      · rw [if_neg hl]
        simp
    · rw [(processBlock_fire a numSamples midiMessages hf hempty).2.2]
      generalize (if !a.isPlaying then 0 else a.noteIndex) = idx
      by_cases hl : a.lastNote ≠ -1
      · rw [if_pos hl]
        simp [MidiMessage.isNoteOn, MidiMessage.isNoteOff, List.filter_cons]
      · rw [if_neg hl]
        simp [MidiMessage.isNoteOn, MidiMessage.isNoteOff, List.filter_cons]
  · rw [(processBlock_noFire a numSamples midiMessages hf).1]
    simp

/-- A block of a whole quarter note at the rate 4 spans the four positions 0,
1/4, 1/2 and 3/4 and triggers once, at offset 0. -/
theorem one_trigger_per_block_witness :
    (chordArp.callback (hostBlock 0 true 24000 [])).added = [⟨0, .noteOn 1 60 127⟩] ∧
    ((chordArp.callback (hostBlock 0 true 24000 [])).added.filter
        (fun e => e.message.isNoteOn)).length ≤ 1 ∧
    ((chordArp.callback (hostBlock 0 true 24000 [])).added.filter
        (fun e => e.message.isNoteOff)).length ≤ 1 :=
  ⟨by decide!,
   one_trigger_per_block (chordArp.configure (hostBlock 0 true 24000 [])) 24000 []⟩

theorem trackNotes_append : ∀ (xs ys : List MidiEvent) (s : Option Int),
    trackNotes s (xs ++ ys) = (trackNotes s xs).bind (fun t => trackNotes t ys)
  | [], _, _ => rfl
  | e :: xs, ys, s => by
    have ih := trackNotes_append xs ys
    rcases e with ⟨t, m⟩
    cases m <;> cases s <;> simp only [List.cons_append, trackNotes, Option.bind] <;>
      first
        | exact ih _
        | rfl
        | (split_ifs
           · exact ih _
           · rfl)

theorem add_mem (s : SortedSet) (x y : Int) (h : y ∈ s.add x) : y = x ∨ y ∈ s := by
  induction s with
  | nil =>
    simp [SortedSet.add] at h
    exact Or.inl h
  | cons z zs ih =>
    unfold SortedSet.add at h
    split_ifs at h with h1 h2
    · rcases List.mem_cons.1 h with h | h
      · exact Or.inl h
      · exact Or.inr h
    · exact Or.inr h
    · rcases List.mem_cons.1 h with h | h
      · exact Or.inr (List.mem_cons.2 (Or.inl h))
      · rcases ih h with h | h
        · exact Or.inl h
        · exact Or.inr (List.mem_cons_of_mem _ h)

theorem removeValue_mem (s : SortedSet) (x y : Int) (h : y ∈ s.removeValue x) : y ∈ s := by
  induction s with
  | nil => simp [SortedSet.removeValue] at h
  | cons z zs ih =>
    unfold SortedSet.removeValue at h
    split_ifs at h
    · exact List.mem_cons_of_mem _ h
    · rcases List.mem_cons.1 h with h | h
      · exact List.mem_cons.2 (Or.inl h)
      · exact List.mem_cons_of_mem _ (ih h)

theorem updateNotes_nonneg : ∀ (m : MidiBuffer) (s : SortedSet),
    (∀ x ∈ s, 0 ≤ x) → (∀ e ∈ m, 0 ≤ e.message.getNoteNumber) →
    ∀ x ∈ updateNotes s m, 0 ≤ x
  | [], _, hs, _ => hs
  | e :: es, s, hs, hm => by
    have hes : ∀ e ∈ es, 0 ≤ e.message.getNoteNumber :=
      fun e he => hm e (List.mem_cons_of_mem _ he)
    have he0 := hm e (List.mem_cons_self _ _)
    unfold updateNotes
    simp only []
    split_ifs
    · apply updateNotes_nonneg es _ _ hes
      intro x hx
      rcases add_mem _ _ _ hx with h | h
      · rw [h]; exact he0
      · exact hs x h
    · apply updateNotes_nonneg es _ _ hes
      intro x hx
      exact hs x (removeValue_mem _ _ _ hx)
    · exact updateNotes_nonneg es s hs hes

theorem get_nonneg (s : SortedSet) (i : Int) (hs : ∀ x ∈ s, 0 ≤ x) : 0 ≤ s.get i := by
  unfold SortedSet.get
  split_ifs with h
  · unfold SortedSet.size at h
    have hi : i.toNat < s.length := by omega
    rw [List.getD_eq_getElem?_getD, List.getElem?_eq_getElem hi]
    exact hs _ (List.getElem_mem _)
  · exact le_rfl

theorem soundingOf_nonneg (x : Int) (h : 0 ≤ x) : soundingOf x = some x := by
  unfold soundingOf
  rw [if_neg (by omega)]

/-- One callback keeps the books: read from the note `lastNote` stands for, the
events it emits are accepted and end at the note the new `lastNote` stands for. -/
theorem callback_tracks (a : Arpeggiator) (b : Block)
    (hs : ∀ x ∈ updateNotes a.notes b.midiMessages, 0 ≤ x) :
    trackNotes (soundingOf a.lastNote) (a.callback b).added
      = some (soundingOf (a.callback b).arp.lastNote) := by
  obtain ⟨hn, hi, hp, hl, -⟩ := configure_fields a b
  have hoff : ∀ (t : Int), a.lastNote ≠ -1 →
      trackNotes (soundingOf a.lastNote) [⟨t, .noteOff 1 a.lastNote⟩] = some none := by
    intro t h
    unfold soundingOf
    rw [if_neg h]
    simp [trackNotes]
  have hnone : ¬ a.lastNote ≠ -1 → soundingOf a.lastNote = none := by
    intro h
    unfold soundingOf
    rw [if_pos (not_not.1 h)]
  unfold callback
  by_cases hf : (a.configure b).fires b.numSamples
  · by_cases hempty : updateNotes (a.configure b).notes b.midiMessages = []
    · obtain ⟨-, h2, h3⟩ := processBlock_fire_empty _ _ _ hf hempty
      rw [h2, h3, hl]
      by_cases hlast : a.lastNote ≠ -1
      · rw [if_pos hlast, hoff _ hlast]
        rfl
      · rw [if_neg hlast, hnone hlast]
        rfl
    · obtain ⟨-, h2, h3⟩ := processBlock_fire _ _ _ hf hempty
      rw [h2, h3, hl, hn, trackNotes_append]
      have hx := get_nonneg _ (if !(a.configure b).isPlaying then 0 else (a.configure b).noteIndex)
        hs
      rw [soundingOf_nonneg _ hx]
      by_cases hlast : a.lastNote ≠ -1
      · rw [if_pos hlast, hoff _ hlast]
        simp [trackNotes]
      · rw [if_neg hlast, hnone hlast]
        simp [trackNotes]
  · obtain ⟨h1, -, -, h4⟩ := processBlock_noFire _ _ b.midiMessages hf
    rw [h1, h4, hl]
    rfl

theorem run_tracks : ∀ (bs : List Block) (a : Arpeggiator), (∀ x ∈ a.notes, 0 ≤ x) →
    (∀ b ∈ bs, ∀ e ∈ b.midiMessages, 0 ≤ e.message.getNoteNumber) →
    trackNotes (soundingOf a.lastNote) (a.run bs).2 = some (soundingOf (a.run bs).1.lastNote)
  | [], _, _, _ => rfl
  | b :: bs, a, hs, hm => by
    have hs1 := updateNotes_nonneg b.midiMessages a.notes hs (hm b (List.mem_cons_self _ _))
    have hnotes : (a.callback b).arp.notes = updateNotes a.notes b.midiMessages := by
      unfold callback
      rw [processBlock_notes, (configure_fields a b).1]
    rw [run_cons, trackNotes_append, callback_tracks a b hs1]
    exact run_tracks bs (a.callback b).arp (by rw [hnotes]; exact hs1)
      (fun c hc => hm c (List.mem_cons_of_mem _ hc))

/-- C25: over every sequence of callbacks after `prepareToPlay`, with incoming
note numbers that are not negative (MIDI note numbers are 0 to 127), the
events the arpeggiator emits keep the books: each note-on comes while no
emitted note sounds, each note-off carries the number of the emitted note that
sounds, so that exactly one note-off lies between two successive note-ons, and
at the end `lastNote` is the emitted note that still sounds, or `-1` when none
does. -/
theorem no_stuck_notes (a0 : Arpeggiator) (sampleRate : ℚ) (bs : List Block)
    (hm : ∀ b ∈ bs, ∀ e ∈ b.midiMessages, 0 ≤ e.message.getNoteNumber) :
    trackNotes none ((a0.prepareToPlay sampleRate).run bs).2
      = some (soundingOf ((a0.prepareToPlay sampleRate).run bs).1.lastNote) :=
  run_tracks bs (a0.prepareToPlay sampleRate) (by simp [prepareToPlay]) hm

theorem no_stuck_notes_witness :
    ((chordArp.prepareToPlay 48000).run releaseAtTrigger).2.map (fun e => e.message)
      = [.noteOn 1 60 127, .noteOff 1 60, .noteOn 1 64 127, .noteOff 1 64, .noteOn 1 0 127] ∧
    trackNotes none ((chordArp.prepareToPlay 48000).run releaseAtTrigger).2
      = some (soundingOf ((chordArp.prepareToPlay 48000).run releaseAtTrigger).1.lastNote) :=
  ⟨by decide!, no_stuck_notes chordArp 48000 releaseAtTrigger (by decide!)⟩

/-! ## Theorems: phase step and LFO choice -/

/-- C29: for every phase increment `d` with `0 ≤ d ≤ 1` and every phase `p`
with `0 ≤ p ≤ 1`, after `process` the stored phase is again in `[0,1]`; the
increment is in that range after `setFrequency f` with `0 ≤ f` and `f` at most
a sample rate above 0. -/
theorem phase_closed_interval_step (output : ℚ → ℚ) (ph : Phasor) (f : ℚ)
    (hd0 : 0 ≤ ph.phaseDelta) (hd1 : ph.phaseDelta ≤ 1) (hp0 : 0 ≤ ph.phase)
    (hp1 : ph.phase ≤ 1) :
    (0 ≤ (Phasor.process output ph).1.phase ∧ (Phasor.process output ph).1.phase ≤ 1) ∧
    (0 < ph.sampleRate → 0 ≤ f → f ≤ ph.sampleRate →
      0 ≤ (Phasor.process output (ph.setFrequency f)).1.phase ∧
      (Phasor.process output (ph.setFrequency f)).1.phase ≤ 1) := by
  have step : ∀ q : Phasor, 0 ≤ q.phaseDelta → q.phaseDelta ≤ 1 → 0 ≤ q.phase → q.phase ≤ 1 →
      0 ≤ (Phasor.process output q).1.phase ∧ (Phasor.process output q).1.phase ≤ 1 := by
    intro q h1 h2 h3 h4
    unfold Phasor.process
    simp only []
    split_ifs with h
    · constructor <;> linarith
    · exact ⟨by linarith, not_lt.1 h⟩
  refine ⟨step ph hd0 hd1 hp0 hp1, ?_⟩
  intro hsr hf0 hf1
  exact step (ph.setFrequency f) (div_nonneg hf0 hsr.le) ((div_le_one hsr).2 hf1) hp0 hp1

theorem phase_closed_interval_step_witness :
    (Phasor.process Phasor.output halfRatePhasor).1.phase = 1 ∧
    (0 ≤ (Phasor.process Phasor.output halfRatePhasor).1.phase ∧
      (Phasor.process Phasor.output halfRatePhasor).1.phase ≤ 1) ∧
    ((0 : ℚ) < halfRatePhasor.sampleRate → (0 : ℚ) ≤ 48000 → 48000 ≤ halfRatePhasor.sampleRate →
      0 ≤ (Phasor.process Phasor.output (halfRatePhasor.setFrequency 48000)).1.phase ∧
      (Phasor.process Phasor.output (halfRatePhasor.setFrequency 48000)).1.phase ≤ 1) :=
  ⟨by decide!,
   phase_closed_interval_step Phasor.output halfRatePhasor 48000 (by decide!) (by decide!)
     (by decide!) (by decide!)⟩

/-- C22 (the code at the failing input): the parameter layout names the choices
of `typeLFO` "Square", "Sine", "Triangle" for the indices 0, 1, 2, and the
sample loop takes the sine LFO for the index 0, the triangle LFO for the index
1 and the square LFO for the index 2; for each index the two other LFOs are
left as they are. -/
theorem lfo_choice_mismatch {L : Library} (P : VoiceParameters) (v : BitCrusherVoice L) :
    typeLFOChoices = ["Square", "Sine", "Triangle"] ∧
    (P.typeLFO = 0 →
      (BitCrusherVoice.lfoStep P v).2
          = (Phasor.process (SinOsc.output L.sin) (v.sinLFO.setFrequency P.LFORate)).2 ∧
      (BitCrusherVoice.lfoStep P v).1.squareLFO = v.squareLFO ∧
      (BitCrusherVoice.lfoStep P v).1.triLFO = v.triLFO) ∧
    (P.typeLFO = 1 →
      (BitCrusherVoice.lfoStep P v).2
          = (Phasor.process TriOsc.output (v.triLFO.setFrequency P.LFORate)).2 ∧
      (BitCrusherVoice.lfoStep P v).1.sinLFO = v.sinLFO ∧
      (BitCrusherVoice.lfoStep P v).1.squareLFO = v.squareLFO) ∧
    (P.typeLFO = 2 →
      (BitCrusherVoice.lfoStep P v).2
          = ((v.squareLFO.setFrequency P.LFORate).setPulseWidth 0.5).process.2 ∧
      (BitCrusherVoice.lfoStep P v).1.sinLFO = v.sinLFO ∧
      (BitCrusherVoice.lfoStep P v).1.triLFO = v.triLFO) := by
  refine ⟨rfl, ?_, ?_, ?_⟩
  · intro h
    unfold BitCrusherVoice.lfoStep
    rw [if_pos h]
    exact ⟨rfl, rfl, rfl⟩
  · intro h
    unfold BitCrusherVoice.lfoStep
    rw [if_neg (by rw [h]; norm_num), if_pos h]
    exact ⟨rfl, rfl, rfl⟩
  · intro h
    unfold BitCrusherVoice.lfoStep
    rw [if_neg (by rw [h]; norm_num), if_neg (by rw [h]; norm_num), if_pos h]
    exact ⟨rfl, rfl, rfl⟩

/-! ## Theorems: the sample loop in parts -/

/-- C32: `output` does not read the release value: two `ASDROsc` with the same
attack, decay and sustain return the same result at every phase, so the result
after `setASDR` or `setRelease` is the same for any two release values. The
sustain value is the length of the sustain segment as well as its level, and
the release segment runs from `attack + decay + sustain` to 1, whatever the
release value. -/
theorem release_has_no_effect (o1 o2 : ASDROsc) (p : ℚ) (ha : o1.attack = o2.attack)
    (hd : o1.decay = o2.decay) (hs : o1.sustain = o2.sustain) :
    o1.output p = o2.output p ∧
    (∀ a s d r1 r2 : ℚ, (o1.setASDR a s d r1).output p = (o2.setASDR a s d r2).output p) ∧
    (∀ r1 r2 : ℚ, (o1.setRelease r1).output p = (o2.setRelease r2).output p) ∧
    (0 ≤ o1.decay → o1.attack + o1.decay ≤ p → p < o1.attack + o1.decay + o1.sustain →
      o1.output p = some o1.sustain) ∧
    (0 ≤ o1.decay → 0 ≤ o1.sustain → o1.attack + o1.decay + o1.sustain ≤ p → p ≤ 1 →
      o1.attack + o1.decay + o1.sustain < 1 →
      o1.output p = some (o1.sustain * (1 - (p - (o1.attack + o1.decay + o1.sustain))
        / (1 - (o1.attack + o1.decay + o1.sustain))))) := by
  have hsame : ∀ q1 q2 : ASDROsc, q1.attack = q2.attack → q1.decay = q2.decay →
      q1.sustain = q2.sustain → q1.output p = q2.output p := by
    intro q1 q2 h1 h2 h3
    unfold ASDROsc.output
    rw [h1, h2, h3]
  refine ⟨hsame o1 o2 ha hd hs, ?_, ?_, ?_, ?_⟩
  · intro a s d r1 r2
    exact hsame _ _ rfl rfl rfl
  · intro r1 r2
    exact hsame _ _ ha hd hs
  · intro h0 h1 h2
    unfold ASDROsc.output
    rw [if_neg (by linarith), if_neg (by rintro ⟨-, h⟩; linarith), if_pos ⟨h1, h2⟩]
  · intro h0 hs0 h1 h2 h3
    unfold ASDROsc.output
    rw [if_neg (by linarith), if_neg (by rintro ⟨-, h⟩; linarith),
      if_neg (by rintro ⟨-, h⟩; linarith), if_pos ⟨h1, h2⟩]
    simp only []
    rw [if_neg (by linarith)]

theorem release_has_no_effect_witness :
    chordOsc.release = 1/1000 ∧ slowReleaseOsc.release = 1/2 ∧
    chordOsc.output (1/2) = some (5/468) ∧ slowReleaseOsc.output (1/2) = some (5/468) ∧
    (chordOsc.output (1/2) = slowReleaseOsc.output (1/2) ∧
    (∀ a s d r1 r2 : ℚ,
      (chordOsc.setASDR a s d r1).output (1/2) = (slowReleaseOsc.setASDR a s d r2).output (1/2)) ∧
    (∀ r1 r2 : ℚ,
      (chordOsc.setRelease r1).output (1/2) = (slowReleaseOsc.setRelease r2).output (1/2)) ∧
    (0 ≤ chordOsc.decay → chordOsc.attack + chordOsc.decay ≤ 1/2 →
      1/2 < chordOsc.attack + chordOsc.decay + chordOsc.sustain →
      chordOsc.output (1/2) = some chordOsc.sustain) ∧
    (0 ≤ chordOsc.decay → 0 ≤ chordOsc.sustain →
      chordOsc.attack + chordOsc.decay + chordOsc.sustain ≤ 1/2 → (1/2 : ℚ) ≤ 1 →
      chordOsc.attack + chordOsc.decay + chordOsc.sustain < 1 →
      chordOsc.output (1/2) = some (chordOsc.sustain
        * (1 - (1/2 - (chordOsc.attack + chordOsc.decay + chordOsc.sustain))
        / (1 - (chordOsc.attack + chordOsc.decay + chordOsc.sustain)))))) :=
  ⟨by decide!, by decide!, by decide!, by decide!,
   release_has_no_effect chordOsc slowReleaseOsc (1/2) (by decide!) (by decide!) (by decide!)⟩

/-! ## Theorems: rounding to a binary format -/

theorem roundHalfEven_floor_le (y : ℚ) : ⌊y⌋ ≤ roundHalfEven y := by
  unfold roundHalfEven
  split_ifs <;> omega

theorem roundHalfEven_le_floor_add_one (y : ℚ) : roundHalfEven y ≤ ⌊y⌋ + 1 := by
  unfold roundHalfEven
  split_ifs <;> omega

theorem le_roundHalfEven (y : ℚ) (m : Int) (h : (m : ℚ) ≤ y) : m ≤ roundHalfEven y :=
  le_trans (Int.le_floor.2 h) (roundHalfEven_floor_le y)

theorem roundHalfEven_le (y : ℚ) (m : Int) (h : y ≤ (m : ℚ)) : roundHalfEven y ≤ m := by
  have hf : (⌊y⌋ : ℚ) ≤ y := Int.floor_le y
  unfold roundHalfEven
  split_ifs with h1 h2 h3
  · exact_mod_cast le_trans hf h
  · have : (⌊y⌋ : ℚ) < m := by linarith
    have : ⌊y⌋ < m := by exact_mod_cast this
    omega
  · exact_mod_cast le_trans hf h
  · have : (⌊y⌋ : ℚ) < m := by linarith
    have : ⌊y⌋ < m := by exact_mod_cast this
    omega

theorem roundHalfEven_mono (y z : ℚ) (h : y ≤ z) : roundHalfEven y ≤ roundHalfEven z := by
  have hfl : ⌊y⌋ ≤ ⌊z⌋ := Int.floor_mono h
  rcases lt_or_eq_of_le hfl with hlt | heq
  · have h1 := roundHalfEven_le_floor_add_one y
    have h2 := roundHalfEven_floor_le z
    omega
  · unfold roundHalfEven
    rw [heq]
    have hd : y - (⌊z⌋ : ℚ) ≤ z - (⌊z⌋ : ℚ) := by linarith
    split_ifs <;> first | omega | (exfalso; linarith)

theorem ulpScan_spec (prec : Int) : ∀ (fuel : Nat) (e : Int) (x : ℚ),
    e - fuel ≤ FloatFormat.ulpScan fuel e (2 ^ (e + prec - 1)) x ∧
    FloatFormat.ulpScan fuel e (2 ^ (e + prec - 1)) x ≤ e ∧
    (FloatFormat.ulpScan fuel e (2 ^ (e + prec - 1)) x = e - fuel ∨
      (2 : ℚ) ^ (FloatFormat.ulpScan fuel e (2 ^ (e + prec - 1)) x + prec - 1) ≤ x) ∧
    (FloatFormat.ulpScan fuel e (2 ^ (e + prec - 1)) x = e ∨
      x < (2 : ℚ) ^ (FloatFormat.ulpScan fuel e (2 ^ (e + prec - 1)) x + prec))
  | 0, e, x => by
    simp [FloatFormat.ulpScan]
  | fuel + 1, e, x => by
    have hhalf : (2 : ℚ) ^ (e + prec - 1) / 2 = 2 ^ (e - 1 + prec - 1) := by
      have h1 : (2 : ℚ) ^ (e - 1 + prec - 1) = 2 ^ (e + prec - 1) * 2⁻¹ := by
        rw [show e - 1 + prec - 1 = (e + prec - 1) - 1 by ring,
          zpow_sub_one₀ (by norm_num : (2 : ℚ) ≠ 0)]
      rw [h1, div_eq_mul_inv]
    unfold FloatFormat.ulpScan
    by_cases h : (2 : ℚ) ^ (e + prec - 1) ≤ x
    · rw [if_pos h]
      refine ⟨by push_cast; omega, le_rfl, Or.inr h, Or.inl rfl⟩
    · rw [if_neg h, hhalf]
      obtain ⟨h1, h2, h3, h4⟩ := ulpScan_spec prec fuel (e - 1) x
      refine ⟨by push_cast at h1 ⊢; omega, by omega, ?_, ?_⟩
      · rcases h3 with h3 | h3
        · left; rw [h3]; push_cast; ring
        · right; exact h3
      · right
        rcases h4 with h4 | h4
        · rw [h4]
          have : e - 1 + prec = e + prec - 1 := by ring
          rw [this]
          exact not_le.1 h
        · exact h4

/-- The exponent of the unit in the last place lies between `emin` and
`etop`, and `x` lies in its binade: `2 ^ (E + precision - 1) ≤ |x|` unless
`E = emin`, and `|x| < 2 ^ (E + precision)` unless `E = etop`. -/
theorem ulpExponent_spec (F : FloatFormat) (hF : F.emin ≤ F.etop) (x : ℚ) :
    F.emin ≤ F.ulpExponent x ∧ F.ulpExponent x ≤ F.etop ∧
    (F.ulpExponent x = F.emin ∨ (2 : ℚ) ^ (F.ulpExponent x + F.precision - 1) ≤ |x|) ∧
    (F.ulpExponent x = F.etop ∨ |x| < (2 : ℚ) ^ (F.ulpExponent x + F.precision)) := by
  have he : F.emax + 1 = F.etop + F.precision - 1 := by unfold FloatFormat.etop; ring
  have hn : ((F.etop - F.emin).toNat : Int) = F.etop - F.emin := Int.toNat_of_nonneg (by omega)
  unfold FloatFormat.ulpExponent
  rw [he]
  obtain ⟨h1, h2, h3, h4⟩ := ulpScan_spec F.precision (F.etop - F.emin).toNat F.etop |x|
  rw [hn] at h1 h3
  refine ⟨by omega, h2, ?_, h4⟩
  rcases h3 with h3 | h3
  · left; rw [h3]; ring
  · right; exact h3

theorem ulpExponent_le (F : FloatFormat) (hF : F.emin ≤ F.etop) (x : ℚ) (K : Int)
    (hK : F.emin ≤ K) (hx : |x| < (2 : ℚ) ^ (K + F.precision)) : F.ulpExponent x ≤ K := by
  obtain ⟨-, -, h3, -⟩ := ulpExponent_spec F hF x
  by_contra hcon
  push_neg at hcon
  rcases h3 with h3 | h3
  · omega
  · have h5 := lt_of_le_of_lt h3 hx
    rw [zpow_lt_zpow_iff_right₀ (by norm_num : (1 : ℚ) < 2)] at h5
    omega

theorem ulpExponent_mono (F : FloatFormat) (hF : F.emin ≤ F.etop) (x y : ℚ) (h : |x| ≤ |y|) :
    F.ulpExponent x ≤ F.ulpExponent y := by
  obtain ⟨hx1, hx2, hx3, -⟩ := ulpExponent_spec F hF x
  obtain ⟨-, -, -, hy4⟩ := ulpExponent_spec F hF y
  by_contra hcon
  push_neg at hcon
  rcases hx3 with hx3 | hx3
  · obtain ⟨hy1, -, -, -⟩ := ulpExponent_spec F hF y
    omega
  · rcases hy4 with hy4 | hy4
    · omega
    · have h5 := lt_of_le_of_lt (le_trans hx3 h) hy4
      rw [zpow_lt_zpow_iff_right₀ (by norm_num : (1 : ℚ) < 2)] at h5
      omega

theorem zpow_split (E K : Int) (h : E ≤ K) :
    (2 : ℚ) ^ K = (((2 : Int) ^ (K - E).toNat : Int) : ℚ) * 2 ^ E := by
  rw [Int.cast_pow, Int.cast_ofNat, ← zpow_natCast, Int.toNat_of_nonneg (by omega),
    ← zpow_add₀ (by norm_num : (2 : ℚ) ≠ 0)]
  congr 1
  ring

/-- A multiple `m * 2 ^ K` of a power of two at or above the unit in the last
place at `x` that is a lower bound of `x` is a lower bound of the rounded value. -/
theorem le_nearest (F : FloatFormat) (x : ℚ) (m K : Int) (hK : F.ulpExponent x ≤ K)
    (h : (m : ℚ) * 2 ^ K ≤ x) : (m : ℚ) * 2 ^ K ≤ F.nearest x := by
  have h2 : (0 : ℚ) < 2 ^ F.ulpExponent x := zpow_pos (by norm_num) _
  rw [zpow_split _ _ hK, ← mul_assoc, ← Int.cast_mul] at h ⊢
  unfold FloatFormat.nearest
  apply mul_le_mul_of_nonneg_right _ h2.le
  exact_mod_cast le_roundHalfEven _ _ ((le_div_iff₀ h2).2 h)

theorem nearest_le (F : FloatFormat) (x : ℚ) (m K : Int) (hK : F.ulpExponent x ≤ K)
    (h : x ≤ (m : ℚ) * 2 ^ K) : F.nearest x ≤ (m : ℚ) * 2 ^ K := by
  have h2 : (0 : ℚ) < 2 ^ F.ulpExponent x := zpow_pos (by norm_num) _
  rw [zpow_split _ _ hK, ← mul_assoc, ← Int.cast_mul] at h ⊢
  unfold FloatFormat.nearest
  apply mul_le_mul_of_nonneg_right _ h2.le
  exact_mod_cast roundHalfEven_le _ _ ((div_le_iff₀ h2).2 h)

/-- Rounding is monotone. -/
theorem nearest_mono (F : FloatFormat) (hF : F.emin ≤ F.etop) (hp : 1 ≤ F.precision) (x y : ℚ)
    (h : x ≤ y) : F.nearest x ≤ F.nearest y := by
  have key : ∀ a b : ℚ, F.ulpExponent a = F.ulpExponent b → a ≤ b →
      F.nearest a ≤ F.nearest b := by
    intro a b hab hle
    have h2 : (0 : ℚ) < 2 ^ F.ulpExponent b := zpow_pos (by norm_num) _
    unfold FloatFormat.nearest
    rw [hab]
    apply mul_le_mul_of_nonneg_right _ h2.le
    exact_mod_cast roundHalfEven_mono _ _ (div_le_div_of_nonneg_right hle h2.le)
  rcases lt_trichotomy (F.ulpExponent x) (F.ulpExponent y) with hlt | heq | hgt
  · -- the binade of y is above the one of x
    obtain ⟨-, -, -, hx4⟩ := ulpExponent_spec F hF x
    obtain ⟨hy1, hy2, hy3, -⟩ := ulpExponent_spec F hF y
    have hT : (2 : ℚ) ^ (F.ulpExponent y + F.precision - 1) ≤ |y| := by
      rcases hy3 with hy3 | hy3
      · obtain ⟨hx1, -, -, -⟩ := ulpExponent_spec F hF x
        omega
      · exact hy3
    have hxT : |x| < (2 : ℚ) ^ (F.ulpExponent y + F.precision - 1) := by
      rcases hx4 with hx4 | hx4
      · omega
      · exact lt_of_lt_of_le hx4 (zpow_le_zpow_right₀ (by norm_num) (by omega))
    have hy0 : 0 ≤ y := by
      by_contra hneg
      push_neg at hneg
      have h1 : |y| ≤ |x| := by
        rw [abs_of_neg hneg, abs_of_neg (lt_of_le_of_lt h hneg)]
        linarith
      have := ulpExponent_mono F hF y x h1
      omega
    rw [abs_of_nonneg hy0] at hT
    have h1 : F.nearest x ≤ ((1 : Int) : ℚ) * 2 ^ (F.ulpExponent y + F.precision - 1) :=
      nearest_le F x 1 _ (by omega) (by push_cast; rw [one_mul]; exact le_trans (le_abs_self x) hxT.le)
    have h2 : ((1 : Int) : ℚ) * 2 ^ (F.ulpExponent y + F.precision - 1) ≤ F.nearest y :=
      le_nearest F y 1 _ (by omega) (by push_cast; rw [one_mul]; exact hT)
    exact le_trans h1 h2
  · exact key x y heq h
  · -- the binade of x is above the one of y: both are negative
    obtain ⟨hx1, hx2, hx3, -⟩ := ulpExponent_spec F hF x
    obtain ⟨-, -, -, hy4⟩ := ulpExponent_spec F hF y
    have hT : (2 : ℚ) ^ (F.ulpExponent x + F.precision - 1) ≤ |x| := by
      rcases hx3 with hx3 | hx3
      · obtain ⟨hy1, -, -, -⟩ := ulpExponent_spec F hF y
        omega
      · exact hx3
    have hyT : |y| < (2 : ℚ) ^ (F.ulpExponent x + F.precision - 1) := by
      rcases hy4 with hy4 | hy4
      · omega
      · exact lt_of_lt_of_le hy4 (zpow_le_zpow_right₀ (by norm_num) (by omega))
    have hx0 : x ≤ 0 := by
      by_contra hpos
      push_neg at hpos
      have h1 : |x| ≤ |y| := by
        rw [abs_of_pos hpos, abs_of_pos (lt_of_lt_of_le hpos h)]
        exact h
      have := ulpExponent_mono F hF x y h1
      omega
    rw [abs_of_nonpos hx0] at hT
    have h1 : F.nearest x ≤ ((-1 : Int) : ℚ) * 2 ^ (F.ulpExponent x + F.precision - 1) :=
      nearest_le F x (-1) _ (by omega) (by push_cast; linarith)
    have h2 : ((-1 : Int) : ℚ) * 2 ^ (F.ulpExponent x + F.precision - 1) ≤ F.nearest y :=
      le_nearest F y (-1) _ (by omega) (by push_cast; linarith [neg_abs_le y])
    exact le_trans h1 h2

/-- A value between two multiples of `2 ^ K` with multipliers below
`2 ^ precision` rounds to a value between them, without overflow. -/
theorem round_mem_Icc (F : FloatFormat) (hF : F.emin ≤ F.etop)
    (x lo hi : ℚ) (mlo mhi K : Int) (hK : F.emin ≤ K) (hK2 : K + F.precision ≤ F.emax + 1)
    (elo : lo = (mlo : ℚ) * 2 ^ K) (ehi : hi = (mhi : ℚ) * 2 ^ K)
    (blo : |(mlo : ℚ)| < 2 ^ F.precision) (bhi : |(mhi : ℚ)| < 2 ^ F.precision)
    (h1 : lo ≤ x) (h2 : x ≤ hi) :
    F.round x = some (F.nearest x) ∧ lo ≤ F.nearest x ∧ F.nearest x ≤ hi := by
  have hK0 : (0 : ℚ) < 2 ^ K := zpow_pos (by norm_num) _
  have hpow : (2 : ℚ) ^ (K + F.precision) = 2 ^ F.precision * 2 ^ K := by
    rw [zpow_add₀ (by norm_num : (2 : ℚ) ≠ 0)]; ring
  have hxlt : |x| < (2 : ℚ) ^ (K + F.precision) := by
    rw [hpow, abs_lt]
    rw [abs_lt] at blo bhi
    constructor
    · calc -(2 ^ F.precision * 2 ^ K) = (-(2 : ℚ) ^ F.precision) * 2 ^ K := by ring
        _ < (mlo : ℚ) * 2 ^ K := mul_lt_mul_of_pos_right blo.1 hK0
        _ = lo := elo.symm
        _ ≤ x := h1
    · calc x ≤ hi := h2
        _ = (mhi : ℚ) * 2 ^ K := ehi
        _ < 2 ^ F.precision * 2 ^ K := mul_lt_mul_of_pos_right bhi.2 hK0
  have hE := ulpExponent_le F hF x K hK hxlt
  have hlo : lo ≤ F.nearest x := by rw [elo] at h1 ⊢; exact le_nearest F x mlo K hE h1
  have hhi : F.nearest x ≤ hi := by rw [ehi] at h2 ⊢; exact nearest_le F x mhi K hE h2
  refine ⟨?_, hlo, hhi⟩
  have hbig : (2 : ℚ) ^ (K + F.precision) ≤ 2 ^ (F.emax + 1) :=
    zpow_le_zpow_right₀ (by norm_num) hK2
  have hn : |F.nearest x| < 2 ^ (F.emax + 1) := by
    rw [abs_lt]
    rw [abs_lt] at blo bhi
    constructor
    · calc -(2 : ℚ) ^ (F.emax + 1) ≤ -(2 ^ F.precision * 2 ^ K) := by rw [← hpow]; linarith
        _ = (-(2 : ℚ) ^ F.precision) * 2 ^ K := by ring
        _ < (mlo : ℚ) * 2 ^ K := mul_lt_mul_of_pos_right blo.1 hK0
        _ = lo := elo.symm
        _ ≤ F.nearest x := hlo
    · calc F.nearest x ≤ hi := hhi
        _ = (mhi : ℚ) * 2 ^ K := ehi
        _ < 2 ^ F.precision * 2 ^ K := mul_lt_mul_of_pos_right bhi.2 hK0
        _ = 2 ^ (K + F.precision) := hpow.symm
        _ ≤ 2 ^ (F.emax + 1) := hbig
  unfold FloatFormat.round
  rw [if_pos hn]

theorem round_eq_nearest (F : FloatFormat) (x y : ℚ) (h : F.round x = some y) :
    F.nearest x = y := by
  unfold FloatFormat.round at h
  split_ifs at h
  exact Option.some.inj h

/-- Rounding to `binary32` between two multiples of `2 ^ K`. -/
theorem binary32_round_mem (x lo hi : ℚ) (mlo mhi K : Int) (hK : -149 ≤ K) (hK2 : K ≤ 104)
    (elo : lo = (mlo : ℚ) * 2 ^ K) (ehi : hi = (mhi : ℚ) * 2 ^ K)
    (blo : |(mlo : ℚ)| < 16777216) (bhi : |(mhi : ℚ)| < 16777216)
    (h1 : lo ≤ x) (h2 : x ≤ hi) :
    binary32.round x = some (binary32.nearest x) ∧
    lo ≤ binary32.nearest x ∧ binary32.nearest x ≤ hi :=
  round_mem_Icc binary32 (by decide) x lo hi mlo mhi K hK
    (by show K + 24 ≤ 127 + 1; omega) elo ehi
    (by show |(mlo : ℚ)| < 2 ^ (24 : Int); norm_num; exact blo)
    (by show |(mhi : ℚ)| < 2 ^ (24 : Int); norm_num; exact bhi) h1 h2

theorem binary32_round_zero : binary32.round 0 = some 0 := by decide!

theorem binary32_round_one : binary32.round 1 = some 1 := by decide!

theorem binary32_nearest_mono (x y : ℚ) (h : x ≤ y) : binary32.nearest x ≤ binary32.nearest y :=
  nearest_mono binary32 (by decide) (by decide) x y h

/-- With the base depth 1, the LFO value 0 and `powf (2, 1) = 2` the step
count is 1. -/
theorem bitDepthPow_depth_one (powf : ℚ → ℚ → ℚ) (bitDepthLFOAmount : ℚ) (hpow : powf 2 1 = 2) :
    Binary32.bitDepthPow powf 1 bitDepthLFOAmount 0 = some 1 := by
  have hj : jlimit 1 24 (1 : ℚ) = 1 := by decide!
  unfold Binary32.bitDepthPow Binary32.modulatedBitDepth
  rw [zero_mul, binary32_round_zero]
  simp only [Option.some_bind, add_zero]
  rw [binary32_round_one]
  simp only [Option.some_bind]
  rw [hj, hpow]
  norm_num
  exact binary32_round_one

/-- With the step count 1 a sample between `-1/2` and `1/2 - 2^-24` is
quantised to 0. -/
theorem quantize_one_zero (s : ℚ) (h1 : -(1/2) ≤ s) (h2 : s ≤ 1/2 - 1/16777216) :
    Binary32.quantize 1 s = some 0 := by
  obtain ⟨ht, ht1, ht2⟩ := binary32_round_mem s (-(1/2)) (1/2 - 1/16777216) (-8388608) 8388607
    (-24) (by norm_num) (by norm_num) (by norm_num) (by norm_num) (by norm_num) (by norm_num)
    h1 h2
  obtain ⟨hu, hu1, hu2⟩ := binary32_round_mem (binary32.nearest s + 0.5) 0 (1 - 1/16777216) 0
    16777215 (-24) (by norm_num) (by norm_num) (by norm_num) (by norm_num) (by norm_num)
    (by norm_num) (by norm_num; linarith) (by norm_num; linarith)
  have hfl : ⌊binary32.nearest (binary32.nearest s + 0.5)⌋ = 0 := by
    rw [Int.floor_eq_iff]
    constructor
    · exact_mod_cast hu1
    · push_cast; linarith
  unfold Binary32.quantize
  rw [mul_one, ht]
  simp only [Option.some_bind]
  rw [hu]
  simp only [Option.some_bind]
  rw [hfl, if_neg one_ne_zero]
  norm_num
  exact binary32_round_zero

theorem triOsc_output_range (p : ℚ) (h0 : 0 ≤ p) (h1 : p ≤ 1) :
    ∃ x : ℚ, Binary32.TriOsc.output p = some x ∧ -(1/4) ≤ x ∧ x ≤ 1/4 := by
  obtain ⟨ha, ha1, ha2⟩ := binary32_round_mem (p - 0.5) (-(1/2)) (1/2) (-8388608) 8388608
    (-24) (by norm_num) (by norm_num) (by norm_num) (by norm_num) (by norm_num) (by norm_num)
    (by norm_num; linarith) (by norm_num; linarith)
  have habs : |binary32.nearest (p - 0.5)| ≤ 1/2 := abs_le.2 ⟨ha1, ha2⟩
  obtain ⟨hb, hb1, hb2⟩ := binary32_round_mem (|binary32.nearest (p - 0.5)| - 0.25) (-(1/4)) (1/4)
    (-4194304) 4194304 (-24) (by norm_num) (by norm_num) (by norm_num) (by norm_num)
    (by norm_num) (by norm_num) (by norm_num)
    (by norm_num; linarith)
  refine ⟨_, ?_, hb1, hb2⟩
  unfold Binary32.TriOsc.output
  rw [ha]
  simp only [Option.some_bind]
  exact hb

theorem bassSample_range (p e : ℚ) (h0 : 0 ≤ p) (h1 : p ≤ 1) (he0 : 0 ≤ e) (he1 : e ≤ 1) :
    ∃ x : ℚ, Binary32.bassSample p e = some x ∧ -(1/4) ≤ x ∧ x ≤ 1/4 := by
  obtain ⟨t, ht, ht1, ht2⟩ := triOsc_output_range p h0 h1
  obtain ⟨hb, hb1, hb2⟩ := binary32_round_mem (t * e) (-(1/4)) (1/4)
    (-4194304) 4194304 (-24) (by norm_num) (by norm_num) (by norm_num) (by norm_num)
    (by norm_num) (by norm_num) (by nlinarith) (by nlinarith)
  refine ⟨_, ?_, hb1, hb2⟩
  unfold Binary32.bassSample
  rw [ht]
  simp only [Option.some_bind]
  exact hb

/-- C31 (counterexample): the sample `0.5 - 2^-25`, the largest single-precision
value below 0.5, lies in `[-0.5, 0.5)`, and at the base depth 1 with the LFO
value 0 the sum `s + 0.5f` rounds to 1.0, so that `bitcrushing` returns 1. -/
theorem depth_one_rounds_up :
    binary32.round (16777215/33554432) = some (16777215/33554432) ∧
    (-0.5 : ℚ) ≤ 16777215/33554432 ∧ (16777215/33554432 : ℚ) < 0.5 ∧
    Binary32.bitcrushing powfFloor 1 0 (16777215/33554432) 0 = some 1 := by
  decide!

/-- C31 (amended): at the base depth 1 with the LFO value 0, and
`powf (2, 1) = 2`, `bitcrushing` in single precision returns 0 for every sample
`s` with `-0.5 ≤ s ≤ 0.5 - 2^-24`, that is for every single-precision sample of
`[-0.5, 0.5)` except the largest one. Hence the sample of the bass branch, the
single-precision product of the triangle output at a phase in `[0,1]` and an
envelope level in `[0,1]`, lies in `[-0.25, 0.25]` and is crushed to 0. -/
theorem depth_one_crushes_to_zero (powf : ℚ → ℚ → ℚ) (bitDepthLFOAmount : ℚ)
    (hpow : powf 2 1 = 2) :
    (∀ s : ℚ, -(1/2) ≤ s → s ≤ 1/2 - 1/2^24 →
      Binary32.bitcrushing powf 1 bitDepthLFOAmount s 0 = some 0) ∧
    (∀ p e : ℚ, 0 ≤ p → p ≤ 1 → 0 ≤ e → e ≤ 1 →
      ∃ x : ℚ, Binary32.bassSample p e = some x ∧ -(1/4) ≤ x ∧ x ≤ 1/4 ∧
        Binary32.bitcrushing powf 1 bitDepthLFOAmount x 0 = some 0) := by
  have hcrush : ∀ s : ℚ, -(1/2) ≤ s → s ≤ 1/2 - 1/2^24 →
      Binary32.bitcrushing powf 1 bitDepthLFOAmount s 0 = some 0 := by
    intro s h1 h2
    unfold Binary32.bitcrushing
    rw [bitDepthPow_depth_one powf bitDepthLFOAmount hpow]
    simp only [Option.some_bind]
    exact quantize_one_zero s h1 (by norm_num at h2 ⊢; linarith)
  refine ⟨hcrush, ?_⟩
  intro p e h0 h1 he0 he1
  obtain ⟨x, hx, hx1, hx2⟩ := bassSample_range p e h0 h1 he0 he1
  exact ⟨x, hx, hx1, hx2, hcrush x (by linarith) (by norm_num; linarith)⟩


theorem depth_one_crushes_to_zero_witness :
    Binary32.bitcrushing powfFloor 1 3 (1/4) 0 = some 0 ∧
    Binary32.bassSample (1/3) (3/4) = some (-16777215/268435456) ∧
    (∀ s : ℚ, -(1/2) ≤ s → s ≤ 1/2 - 1/2^24 →
      Binary32.bitcrushing powfFloor 1 3 s 0 = some 0) ∧
    (∀ p e : ℚ, 0 ≤ p → p ≤ 1 → 0 ≤ e → e ≤ 1 →
      ∃ x : ℚ, Binary32.bassSample p e = some x ∧ -(1/4) ≤ x ∧ x ≤ 1/4 ∧
        Binary32.bitcrushing powfFloor 1 3 x 0 = some 0) :=
  ⟨by decide!, by decide!, depth_one_crushes_to_zero powfFloor 3 (by decide!)⟩

/-- A value of `binary32` below 1 leaves a difference to 1 that does not round to 0. -/
theorem one_sub_nearest_pos (z : ℚ) (h : binary32.nearest z < 1) :
    0 < binary32.nearest (1 - binary32.nearest z) := by
  obtain ⟨hE1, -, -, -⟩ := ulpExponent_spec binary32 (by decide) z
  have hmin : (1 : ℚ) / 2 ^ 149 ≤ 1 - binary32.nearest z := by
    have h2 : (0 : ℚ) < 2 ^ binary32.ulpExponent z := zpow_pos (by norm_num) _
    by_cases hE : binary32.ulpExponent z ≤ 0
    · have hsplit := zpow_split (binary32.ulpExponent z) 0 hE
      rw [zpow_zero] at hsplit
      have hval : 1 - binary32.nearest z
          = (((2 : Int) ^ (0 - binary32.ulpExponent z).toNat
              - roundHalfEven (z / 2 ^ binary32.ulpExponent z) : Int) : ℚ)
            * 2 ^ binary32.ulpExponent z := by
        unfold FloatFormat.nearest
        push_cast
        rw [sub_mul]
        push_cast at hsplit
        rw [← hsplit]
      have hpos : 0 < 1 - binary32.nearest z := by linarith
      rw [hval] at hpos ⊢
      have hM : (0 : ℚ) < (((2 : Int) ^ (0 - binary32.ulpExponent z).toNat
          - roundHalfEven (z / 2 ^ binary32.ulpExponent z) : Int) : ℚ) :=
        (mul_pos_iff_of_pos_right h2).1 hpos
      have hM1 : (1 : ℚ) ≤ (((2 : Int) ^ (0 - binary32.ulpExponent z).toNat
          - roundHalfEven (z / 2 ^ binary32.ulpExponent z) : Int) : ℚ) := by
        have : (0 : Int) < (2 : Int) ^ (0 - binary32.ulpExponent z).toNat
            - roundHalfEven (z / 2 ^ binary32.ulpExponent z) := by exact_mod_cast hM
        exact_mod_cast this
      have hlow : (1 : ℚ) / 2 ^ 149 ≤ 2 ^ binary32.ulpExponent z := by
        have h3 : (2 : ℚ) ^ (-149 : Int) ≤ 2 ^ binary32.ulpExponent z :=
          zpow_le_zpow_right₀ (by norm_num) hE1
        norm_num at h3 ⊢
        exact h3
      calc (1 : ℚ) / 2 ^ 149 ≤ 2 ^ binary32.ulpExponent z := hlow
        _ = 1 * 2 ^ binary32.ulpExponent z := (one_mul _).symm
        _ ≤ _ := mul_le_mul_of_nonneg_right hM1 h2.le
    · push_neg at hE
      have h3 : (1 : ℚ) ≤ 2 ^ binary32.ulpExponent z := by
        have := zpow_le_zpow_right₀ (by norm_num : (1 : ℚ) ≤ 2) hE.le
        rwa [zpow_zero] at this
      have hR : roundHalfEven (z / 2 ^ binary32.ulpExponent z) ≤ 0 := by
        by_contra hcon
        push_neg at hcon
        have hR1 : (1 : ℚ) ≤ (roundHalfEven (z / 2 ^ binary32.ulpExponent z) : ℚ) := by
          exact_mod_cast hcon
        have : (1 : ℚ) ≤ binary32.nearest z := by
          unfold FloatFormat.nearest
          calc (1 : ℚ) = 1 * 1 := by ring
            _ ≤ _ := mul_le_mul hR1 h3 (by norm_num) (by linarith)
        linarith
      have hle : binary32.nearest z ≤ 0 := by
        unfold FloatFormat.nearest
        apply mul_nonpos_of_nonpos_of_nonneg _ h2.le
        exact_mod_cast hR
      have : (1 : ℚ) / 2 ^ 149 ≤ 1 := by norm_num
      linarith
  have hn : binary32.nearest (1 / 2 ^ 149) = 1 / 2 ^ 149 := by decide!
  have := binary32_nearest_mono _ _ hmin
  rw [hn] at this
  have hp : (0 : ℚ) < 1 / 2 ^ 149 := by norm_num
  linarith

/-- C21 (counterexample): with attack 1/2, decay 1/4 and sustain 1/4, which add
up to 1, the phase 1 falls into the release branch, whose duration is 0, and
`output` has no value in `[0,1]`; the same happens with the sustain
`1/4 - 2^-26`, where the sum is below 1 and the sum computed in single
precision is 1. -/
theorem asdr_zero_length_release :
    (0 < fullCycleOsc.attack ∧ 0 < fullCycleOsc.decay ∧
      0 ≤ fullCycleOsc.sustain ∧ fullCycleOsc.sustain ≤ 1 ∧
      fullCycleOsc.attack + fullCycleOsc.decay + fullCycleOsc.sustain ≤ 1 ∧
      Binary32.ASDROsc.output fullCycleOsc 1 = none) ∧
    (binary32.round nearlyFullCycleOsc.sustain = some nearlyFullCycleOsc.sustain ∧
      nearlyFullCycleOsc.attack + nearlyFullCycleOsc.decay + nearlyFullCycleOsc.sustain < 1 ∧
      Binary32.ASDROsc.releasePhaseStart nearlyFullCycleOsc = some 1 ∧
      Binary32.ASDROsc.output nearlyFullCycleOsc 1 = none) := by
  decide!

/-- C21 (amended): for a single-precision phase `p` of `[0,1]` and parameters
with `attack > 0`, a single-precision `decay > 0`, `0 ≤ sustain ≤ 1` and
`attack + decay + sustain ≤ 1`, the output of `ASDROsc` in single precision is
a value of `[0,1]`, provided that `p < 1` or that the sum
`attack + decay + sustain` computed in single precision is not 1. -/
theorem asdr_range (o : ASDROsc) (p : ℚ) (hp0 : 0 ≤ p) (hp1 : p ≤ 1) (ha : 0 < o.attack)
    (hd : 0 < o.decay) (hs0 : 0 ≤ o.sustain) (hs1 : o.sustain ≤ 1)
    (hsum : o.attack + o.decay + o.sustain ≤ 1)
    (hpf : binary32.round p = some p) (hdf : binary32.round o.decay = some o.decay)
    (hne : p < 1 ∨ Binary32.ASDROsc.releasePhaseStart o ≠ some 1) :
    ∃ y : ℚ, Binary32.ASDROsc.output o p = some y ∧ 0 ≤ y ∧ y ≤ 1 := by
  have hunit : ∀ x : ℚ, 0 ≤ x → x ≤ 1 →
      binary32.round x = some (binary32.nearest x) ∧ 0 ≤ binary32.nearest x ∧
        binary32.nearest x ≤ 1 := by
    intro x h0 h1
    exact binary32_round_mem x 0 1 0 8388608 (-23) (by norm_num) (by norm_num) (by norm_num)
      (by norm_num) (by norm_num) (by norm_num) h0 h1
  have hneg : ∀ x : ℚ, -1 ≤ x → x ≤ 0 →
      binary32.round x = some (binary32.nearest x) ∧ -1 ≤ binary32.nearest x ∧
        binary32.nearest x ≤ 0 := by
    intro x h0 h1
    exact binary32_round_mem x (-1) 0 (-8388608) 0 (-23) (by norm_num) (by norm_num)
      (by norm_num) (by norm_num) (by norm_num) (by norm_num) h0 h1
  have hpn := round_eq_nearest binary32 p p hpf
  have hdn := round_eq_nearest binary32 o.decay o.decay hdf
  unfold Binary32.ASDROsc.output
  by_cases h1 : p < o.attack
  · rw [if_pos h1, if_neg ha.ne']
    obtain ⟨hr, hr0, hr1⟩ := hunit (p / o.attack) (div_nonneg hp0 ha.le)
      ((div_le_one ha).2 h1.le)
    exact ⟨_, hr, hr0, hr1⟩
  · rw [if_neg h1]
    have hpa : o.attack ≤ p := not_lt.1 h1
    obtain ⟨hs1r, hs1a, hs1b⟩ := binary32_round_mem (o.attack + o.decay) 0 2 0 8388608 (-22)
      (by norm_num) (by norm_num) (by norm_num) (by norm_num) (by norm_num) (by norm_num)
      (by linarith) (by linarith)
    rw [hs1r]
    simp only [Option.some_bind]
    by_cases h2 : p ≥ o.attack ∧ p < binary32.nearest (o.attack + o.decay)
    · rw [if_pos h2, if_neg hd.ne']
      have hpd : p - o.attack ≤ o.decay := by
        by_contra hcon
        push_neg at hcon
        have := binary32_nearest_mono (o.attack + o.decay) p (by linarith)
        rw [hpn] at this
        linarith [h2.2]
      obtain ⟨hdr, hdr0, hdr1⟩ := hneg (o.sustain - 1) (by linarith) (by linarith)
      obtain ⟨her, her0, her1⟩ := hunit (p - o.attack) (by linarith) (by linarith)
      have hel : binary32.nearest (p - o.attack) ≤ o.decay := by
        have := binary32_nearest_mono _ _ hpd
        rw [hdn] at this
        exact this
      obtain ⟨hrr, hrr0, hrr1⟩ := hunit (binary32.nearest (p - o.attack) / o.decay)
        (div_nonneg her0 hd.le) ((div_le_one hd).2 hel)
      obtain ⟨hfr, hfr0, hfr1⟩ := hneg
        (binary32.nearest (o.sustain - 1) * binary32.nearest (binary32.nearest (p - o.attack) / o.decay))
        (by nlinarith) (by nlinarith)
      obtain ⟨hyr, hyr0, hyr1⟩ := hunit (1 + binary32.nearest
        (binary32.nearest (o.sustain - 1) * binary32.nearest (binary32.nearest (p - o.attack) / o.decay)))
        (by linarith) (by linarith)
      rw [hdr]
      simp only [Option.some_bind]
      rw [her]
      simp only [Option.some_bind]
      rw [hrr]
      simp only [Option.some_bind]
      rw [hfr]
      simp only [Option.some_bind]
      exact ⟨_, hyr, hyr0, hyr1⟩
    · rw [if_neg h2]
      have hps1 : binary32.nearest (o.attack + o.decay) ≤ p := by
        by_contra hcon
        push_neg at hcon
        exact h2 ⟨hpa, hcon⟩
      obtain ⟨hs2r, hs2a, hs2b⟩ := binary32_round_mem
        (binary32.nearest (o.attack + o.decay) + o.sustain) 0 4 0 8388608 (-21)
        (by norm_num) (by norm_num) (by norm_num) (by norm_num) (by norm_num) (by norm_num)
        (by linarith) (by linarith)
      have hstart : Binary32.ASDROsc.releasePhaseStart o
          = some (binary32.nearest (binary32.nearest (o.attack + o.decay) + o.sustain)) := by
        unfold Binary32.ASDROsc.releasePhaseStart
        rw [hs1r]
        simp only [Option.some_bind]
        exact hs2r
      rw [hs2r]
      simp only [Option.some_bind]
      generalize binary32.nearest (o.attack + o.decay) = s1 at *
      by_cases h3 : p ≥ s1 ∧ p < binary32.nearest (s1 + o.sustain)
      · rw [if_pos h3]
        exact ⟨_, rfl, hs0, hs1⟩
      · rw [if_neg h3]
        have hps2 : binary32.nearest (s1 + o.sustain) ≤ p := by
          by_contra hcon
          push_neg at hcon
          exact h3 ⟨hps1, hcon⟩
        rw [if_pos ⟨hps2, hp1⟩]
        have hlt : binary32.nearest (s1 + o.sustain) < 1 := by
          rcases hne with hne | hne
          · linarith
          · rcases lt_or_eq_of_le (le_trans hps2 hp1) with h | h
            · exact h
            · exact absurd (by rw [hstart, h]) hne
        have hdur := one_sub_nearest_pos (s1 + o.sustain) hlt
        generalize binary32.nearest (s1 + o.sustain) = s2 at *
        obtain ⟨hur, hur0, hur1⟩ := hunit (1 - s2) (by linarith) (by linarith)
        obtain ⟨her, her0, her1⟩ := hunit (p - s2) (by linarith) (by linarith)
        have hel : binary32.nearest (p - s2) ≤ binary32.nearest (1 - s2) :=
          binary32_nearest_mono _ _ (by linarith)
        obtain ⟨hrr, hrr0, hrr1⟩ := hunit (binary32.nearest (p - s2) / binary32.nearest (1 - s2))
          (div_nonneg her0 hdur.le) ((div_le_one hdur).2 hel)
        obtain ⟨hlr, hlr0, hlr1⟩ := hunit
          (1 - binary32.nearest (binary32.nearest (p - s2) / binary32.nearest (1 - s2)))
          (by linarith) (by linarith)
        obtain ⟨hyr, hyr0, hyr1⟩ := hunit (o.sustain * binary32.nearest
          (1 - binary32.nearest (binary32.nearest (p - s2) / binary32.nearest (1 - s2))))
          (mul_nonneg hs0 hlr0) (by nlinarith)
        rw [hur]
        simp only [Option.some_bind]
        rw [if_neg hdur.ne', her]
        simp only [Option.some_bind]
        rw [hrr]
        simp only [Option.some_bind]
        rw [hlr]
        simp only [Option.some_bind]
        exact ⟨_, hyr, hyr0, hyr1⟩

theorem asdr_range_witness :
    Binary32.ASDROsc.output quarterOsc (7/8) = some (1/8) ∧
    ∃ y : ℚ, Binary32.ASDROsc.output quarterOsc (7/8) = some y ∧ 0 ≤ y ∧ y ≤ 1 :=
  ⟨by decide!,
   asdr_range quarterOsc (7/8) (by norm_num) (by norm_num) (by decide!) (by decide!) (by decide!)
    (by decide!) (by decide!) (by decide!) (by decide!) (Or.inl (by norm_num))⟩

/-! ## Theorems: trigger timing in double precision -/

end NesSynth
